import Mathlib

/-!
Shallow embedding of the cache / request-queue core of the Zoro plugin
(src/main.js): the JSON cache-key builder (`Api.createCacheKey`), the
tiered cache operations living on the plugin object (`getFromCache`,
`setToCache`, `clearCacheForMedia`, `clearListCaches`,
`saveCacheToStorage`, `loadCacheFromStorage`), the fetch wrapper
(`Api.fetchZoroData`) and the rate-limited single-flight `RequestQueue`.

Modelling conventions:
* JS objects used as query configurations are association lists
  `List (String × JVal)` in insertion order with distinct keys.
* JS numbers appearing in configurations are integers (`parseInt`-ed
  media ids, page numbers), modelled as `Int`.
* `Date.now()` timestamps are `Nat` milliseconds; `now - timestamp` uses
  truncated subtraction, which agrees with the JS comparisons
  `age > ttl` / `age < ttl` whenever the clock is monotone.
* `JSON.stringify` / `JSON.parse` (JS builtins) are modelled for the
  fragment the plugin feeds them: objects whose values are scalars or
  flat arrays of scalars, with integer numerals.
-/

namespace Zoro

/-- JSON scalar values occurring in query configurations: strings,
(integer) numbers, booleans and null. -/
inductive Scalar where
  | str (s : String)
  | num (n : Int)
  | bool (b : Bool)
  | null
deriving DecidableEq, Repr

/-- A configuration field value: a scalar or a flat array of scalars. -/
inductive JVal where
  | prim (s : Scalar)
  | arr (xs : List Scalar)
deriving DecidableEq, Repr

/-- A query-configuration object: fields in insertion order (JS objects
preserve insertion order and have unique keys). -/
abbrev Config := List (String × JVal)

/-- Association-list lookup, mirroring JS property access `obj[k]`
(`none` plays the role of `undefined`). -/
def lookupField : Config → String → Option JVal
  | [], _ => none
  | (k, v) :: rest, key => if k = key then some v else lookupField rest key

/-- The field keys of a configuration. -/
def keysOf (c : Config) : List String := c.map Prod.fst

/-- Lexicographic comparison of character lists by code point, the
order `Array.prototype.sort()` uses on strings (UTF-16 code-unit
comparison, which agrees with code-point comparison on the plugin's
field names). -/
def charListLe : List Char → List Char → Bool
  | [], _ => true
  | _ :: _, [] => false
  | a :: as, b :: bs =>
    if a.toNat < b.toNat then true
    else if b.toNat < a.toNat then false
    else charListLe as bs

/-- String comparison used when sorting field names. -/
def strLe (a b : String) : Bool := charListLe a.data b.data

/-- Insert one field into a list already sorted by key. -/
def insertField (p : String × JVal) : List (String × JVal) → List (String × JVal)
  | [] => [p]
  | q :: rest => if strLe p.1 q.1 then p :: q :: rest else q :: insertField p rest

/-- Sorting the fields of a configuration by key.  `Api.createCacheKey`
does `Object.keys(config).sort()` and then copies the values across in
sorted key order; for the distinct keys of a JS object this is exactly a
sort of the (key, value) pairs by key.  (`Array.prototype.sort` compares
UTF-16 code units; for the plugin's ASCII field names this coincides
with the codepoint order used here.) -/
def sortFields : List (String × JVal) → List (String × JVal)
  | [] => []
  | p :: rest => insertField p (sortFields rest)

/-- Lower-case hex digit, as emitted by `JSON.stringify`'s `\u00XX`
escapes. -/
def hexDigit (n : Nat) : Char :=
  if n < 10 then Char.ofNat (48 + n) else Char.ofNat (87 + n)

/-- Escaping of one character inside a JSON string literal, following
`JSON.stringify` (ECMA-262 QuoteJSONString).  Lean `Char`s are Unicode
scalar values, so the lone-surrogate branch cannot arise. -/
def escapeChar (c : Char) : List Char :=
  if c = '"' then ['\\', '"']
  else if c = '\\' then ['\\', '\\']
  else if c = '\x08' then ['\\', 'b']
  else if c = '\x0c' then ['\\', 'f']
  else if c = '\n' then ['\\', 'n']
  else if c = '\r' then ['\\', 'r']
  else if c = '\t' then ['\\', 't']
  else if c.toNat < 32 then
    ['\\', 'u', '0', '0', hexDigit (c.toNat / 16), hexDigit (c.toNat % 16)]
  else [c]

/-- Escaping of a whole string body. -/
def escapeList : List Char → List Char
  | [] => []
  | c :: cs => escapeChar c ++ escapeList cs

/-- Decimal digit character. -/
def digitChar (d : Nat) : Char := Char.ofNat (48 + d)

/-- Decimal digits of a natural number, most significant first; the
fuel argument (any bound on the digit count, e.g. the number itself)
keeps the recursion structural. -/
def natDigitsAux : Nat → Nat → List Char
  | 0, _ => []
  | fuel + 1, n =>
    if n = 0 then [] else natDigitsAux fuel (n / 10) ++ [digitChar (n % 10)]

/-- Decimal digits of a natural number, most significant first. -/
def natDigits (n : Nat) : List Char := natDigitsAux n n

/-- Decimal numeral of a natural number (`String(n)` in JS). -/
def natStr (n : Nat) : List Char :=
  if n = 0 then ['0'] else natDigits n

/-- Decimal numeral of an integer, as `JSON.stringify` prints integral
JS numbers. -/
def intStr : Int → List Char
  | Int.ofNat n => natStr n
  | Int.negSucc n => '-' :: natStr (n + 1)

/-- Serialization of a scalar JSON value. -/
def serScalar : Scalar → List Char
  | Scalar.str s => '"' :: (escapeList s.data ++ ['"'])
  | Scalar.num n => intStr n
  | Scalar.bool true => ['t', 'r', 'u', 'e']
  | Scalar.bool false => ['f', 'a', 'l', 's', 'e']
  | Scalar.null => ['n', 'u', 'l', 'l']

/-- Serialization of the tail of a JSON array (after the first element):
zero or more `, element`s followed by `]`. -/
def serArrTail : List Scalar → List Char
  | [] => [']']
  | x :: xs => ',' :: (serScalar x ++ serArrTail xs)

/-- Serialization of a JSON array after the opening bracket. -/
def serArrBody : List Scalar → List Char
  | [] => [']']
  | x :: xs => serScalar x ++ serArrTail xs

/-- Serialization of a JSON array. -/
def serArr (xs : List Scalar) : List Char := '[' :: serArrBody xs

/-- Serialization of a configuration field value. -/
def serVal : JVal → List Char
  | JVal.prim s => serScalar s
  | JVal.arr xs => serArr xs

/-- Serialization of a single `"key":value` field. -/
def serField (f : String × JVal) : List Char :=
  '"' :: (escapeList f.1.data ++ '"' :: ':' :: serVal f.2)

/-- Serialization of the remaining fields of an object (after the first):
zero or more `, field`s followed by the closing `}`. -/
def serFieldsTail : List (String × JVal) → List Char
  | [] => ['}']
  | f :: fs => ',' :: (serField f ++ serFieldsTail fs)

/-- Serialization of a whole JSON object. -/
def serObj : List (String × JVal) → List Char
  | [] => ['{', '}']
  | f :: fs => '{' :: (serField f ++ serFieldsTail fs)

/-- `Api.createCacheKey(config)` (src/main.js lines 85-92): copy the
fields in lexicographically sorted key order into a fresh object and
`JSON.stringify` it. -/
def createCacheKey (c : Config) : String :=
  String.mk (serObj (sortFields c))

/-! ### A parser for the JSON fragment emitted by `createCacheKey`

`clearCacheForMedia` calls `JSON.parse` on every stored cache key.  The
parser below inverts the serializer on the fragment the plugin ever
stores (objects of scalars / flat scalar arrays with integer numerals);
on strings outside that fragment it returns `none`, which the sweep
treats exactly like the `catch` branch in the source (skip the key). -/

/-- Unescaping of a single-character escape (the character after a
backslash, other than `u`). -/
def unescapeChar (c : Char) : Option Char :=
  if c = '"' then some '"'
  else if c = '\\' then some '\\'
  else if c = '/' then some '/'
  else if c = 'b' then some '\x08'
  else if c = 'f' then some '\x0c'
  else if c = 'n' then some '\n'
  else if c = 'r' then some '\r'
  else if c = 't' then some '\t'
  else none

/-- Value of one lower-case hex digit. -/
def hexVal (c : Char) : Option Nat :=
  if 48 ≤ c.toNat ∧ c.toNat ≤ 57 then some (c.toNat - 48)
  else if 97 ≤ c.toNat ∧ c.toNat ≤ 102 then some (c.toNat - 87)
  else none

/-- Sequencing of a parse result: apply the continuation to the parsed
item and the remaining input, propagating failure. -/
def bindPair {A B : Type} (o : Option (A × List Char)) (f : A → List Char → Option B) :
    Option B :=
  match o with
  | some (a, b) => f a b
  | none => none

/-- Prepend a decoded character to a string-parse result. -/
def consStr (c : Char) : Option (List Char × List Char) → Option (List Char × List Char)
  | some (s, r) => some (c :: s, r)
  | none => none

/-- Parse the body of a string literal (the opening `"` already
consumed), returning the decoded characters and the rest of the
input. -/
def pStrAux : List Char → Option (List Char × List Char)
  | [] => none
  | c :: rest =>
    if c = '"' then some ([], rest)
    else if c = '\\' then
      match rest with
      | [] => none
      | e :: rest2 =>
        if e = 'u' then
          match rest2 with
          | h1 :: h2 :: h3 :: h4 :: rest3 =>
            match hexVal h1, hexVal h2, hexVal h3, hexVal h4 with
            | some a, some b, some x, some y =>
              consStr (Char.ofNat (((a * 16 + b) * 16 + x) * 16 + y)) (pStrAux rest3)
            | _, _, _, _ => none
          | _ => none
        else
          match unescapeChar e with
          | some u => consStr u (pStrAux rest2)
          | none => none
    else consStr c (pStrAux rest)

/-- Decimal digit test (48 ≤ code ≤ 57). -/
def isDigitCh (c : Char) : Bool := decide (48 ≤ c.toNat ∧ c.toNat ≤ 57)

/-- Numeric value of a decimal digit character. -/
def digitVal (c : Char) : Nat := c.toNat - 48

/-- Parse a nonempty run of decimal digits. -/
def pNat (cs : List Char) : Option (Nat × List Char) :=
  let ds := cs.takeWhile isDigitCh
  if ds.isEmpty then none
  else some (ds.foldl (fun a c => 10 * a + digitVal c) 0, cs.dropWhile isDigitCh)

/-- Parse an integer numeral (optional leading minus). -/
def pInt : List Char → Option (Int × List Char)
  | [] => none
  | c :: rest =>
    if c = '-' then bindPair (pNat rest) (fun n r => some (-(n : Int), r))
    else bindPair (pNat (c :: rest)) (fun n r => some ((n : Int), r))

/-- Parse a scalar JSON value. -/
def pScalar : List Char → Option (Scalar × List Char)
  | [] => none
  | c :: rest =>
    if c = '"' then
      bindPair (pStrAux rest) (fun s r => some (Scalar.str (String.mk s), r))
    else if c = 't' then
      match rest with
      | 'r' :: 'u' :: 'e' :: r => some (Scalar.bool true, r)
      | _ => none
    else if c = 'f' then
      match rest with
      | 'a' :: 'l' :: 's' :: 'e' :: r => some (Scalar.bool false, r)
      | _ => none
    else if c = 'n' then
      match rest with
      | 'u' :: 'l' :: 'l' :: r => some (Scalar.null, r)
      | _ => none
    else
      bindPair (pInt (c :: rest)) (fun n r => some (Scalar.num n, r))

/-- Parse the tail of an array (`, element`* `]`), fueled by the number
of remaining elements. -/
def pArrTail : Nat → List Char → Option (List Scalar × List Char)
  | fuel, cs =>
    match cs with
    | [] => none
    | c :: rest =>
      if c = ']' then some ([], rest)
      else if c = ',' then
        match fuel with
        | 0 => none
        | fuel2 + 1 =>
          bindPair (pScalar rest) (fun x r =>
            bindPair (pArrTail fuel2 r) (fun xs r2 => some (x :: xs, r2)))
      else none

/-- Parse an array body (the `[` already consumed). -/
def pArr (fuel : Nat) (cs : List Char) : Option (List Scalar × List Char) :=
  match cs with
  | [] => none
  | c :: rest =>
    if c = ']' then some ([], rest)
    else
      bindPair (pScalar (c :: rest)) (fun x r =>
        bindPair (pArrTail fuel r) (fun xs r2 => some (x :: xs, r2)))

/-- Parse a field value (scalar or flat array). -/
def pVal (fuel : Nat) (cs : List Char) : Option (JVal × List Char) :=
  match cs with
  | [] => none
  | c :: rest =>
    if c = '[' then bindPair (pArr fuel rest) (fun xs r => some (JVal.arr xs, r))
    else bindPair (pScalar (c :: rest)) (fun x r => some (JVal.prim x, r))

/-- Parse one `"key":value` field (the opening `"` of the key already
consumed up to `pStrAux`). -/
def pField (fuel : Nat) (cs : List Char) : Option ((String × JVal) × List Char) :=
  match cs with
  | '"' :: rest =>
    bindPair (pStrAux rest) (fun k r =>
      match r with
      | ':' :: r2 => bindPair (pVal fuel r2) (fun v r3 => some ((String.mk k, v), r3))
      | _ => none)
  | _ => none

/-- Parse the remaining fields of an object (`, field`* `}`), fueled by
the number of remaining fields. -/
def pFieldsTail : Nat → List Char → Option (Config × List Char)
  | fuel, cs =>
    match cs with
    | [] => none
    | c :: rest =>
      if c = '}' then some ([], rest)
      else if c = ',' then
        match fuel with
        | 0 => none
        | fuel2 + 1 =>
          bindPair (pField fuel2 rest) (fun f r =>
            bindPair (pFieldsTail fuel2 r) (fun fs r2 => some (f :: fs, r2)))
      else none

/-- Parse a whole object. -/
def pObj (fuel : Nat) (cs : List Char) : Option (Config × List Char) :=
  match cs with
  | [] => none
  | c :: rest =>
    if c = '{' then
      match rest with
      | [] => none
      | c2 :: rest2 =>
        if c2 = '}' then some ([], rest2)
        else
          bindPair (pField fuel (c2 :: rest2)) (fun f r =>
            bindPair (pFieldsTail fuel r) (fun fs r2 => some (f :: fs, r2)))
    else none

/-- The `JSON.parse` call performed on a stored cache key by the sweep in
`clearCacheForMedia`: succeeds exactly when the whole string is one
object of the emitted fragment. -/
def tryParseKey (s : String) : Option Config :=
  match pObj (s.data.length + 1) s.data with
  | some (fs, []) => some fs
  | _ => none

/-! ### The tiered cache (fields of `ZoroPlugin`)

`this.cache` is an object with three `Map`s: `userData`, `mediaData`,
`searchResults` (src/main.js lines 722-726).  A JS `Map` preserves
insertion order and has unique keys; it is modelled as an association
list, with `set` updating in place or appending, and `delete` removing
the (unique) binding of a key. -/

/-- One cache entry: `{ value, timestamp }` (`setToCache`). -/
structure CacheEntry (α : Type) where
  value : α
  timestamp : Nat
deriving DecidableEq, Repr

/-- An insertion-ordered string-keyed map. -/
abbrev CMap (α : Type) := List (String × CacheEntry α)

/-- `Map.prototype.get`. -/
def mapGet (m : CMap α) (k : String) : Option (CacheEntry α) :=
  match m with
  | [] => none
  | (k1, e) :: rest => if k1 = k then some e else mapGet rest k

/-- `Map.prototype.set`: update in place if the key is present,
otherwise append. -/
def mapSet (m : CMap α) (k : String) (e : CacheEntry α) : CMap α :=
  match m with
  | [] => [(k, e)]
  | (k1, e1) :: rest => if k1 = k then (k1, e) :: rest else (k1, e1) :: mapSet rest k e

/-- `Map.prototype.delete` (keys are unique, so removing every binding
of `k` removes the one binding). -/
def mapDelete (m : CMap α) (k : String) : CMap α :=
  m.filter (fun e => !(e.1 == k))

/-- The three cache categories of `this.cache`. -/
structure CacheState (α : Type) where
  userData : CMap α
  mediaData : CMap α
  searchResults : CMap α
deriving DecidableEq, Repr

/-- The freshly constructed cache (plugin constructor). -/
def emptyCache (α : Type) : CacheState α := ⟨[], [], []⟩

/-- Dynamic category access `this.cache[type]`: `none` models a lookup
of an invalid category name (a falsy value in JS). -/
def getCat (st : CacheState α) (type : String) : Option (CMap α) :=
  if type = "userData" then some st.userData
  else if type = "mediaData" then some st.mediaData
  else if type = "searchResults" then some st.searchResults
  else none

/-- Writing a category map back into the state. -/
def setCat (st : CacheState α) (type : String) (m : CMap α) : CacheState α :=
  if type = "userData" then { st with userData := m }
  else if type = "mediaData" then { st with mediaData := m }
  else if type = "searchResults" then { st with searchResults := m }
  else st

/-- `this.cacheTimeout = 4 * 60 * 1000` (plugin constructor, line 728). -/
def cacheTimeout : Nat := 4 * 60 * 1000

/-- The per-category TTL table repeated at lines 145-149, 754-758 and
931-935 of src/main.js (`ttlMap[type] || this.cacheTimeout`). -/
def ttlFor (type : String) : Nat :=
  if type = "userData" then 30 * 60 * 1000
  else if type = "mediaData" then 10 * 60 * 1000
  else if type = "searchResults" then 2 * 60 * 1000
  else cacheTimeout

/-- `ZoroPlugin.getFromCache(type, key, customTtl)` (lines 783-806),
with the current time passed explicitly.  Returns the value (or `none`)
together with the cache state after the call: an entry older than the
TTL is deleted on the spot and `null` is returned; an invalid category
only warns and returns `null`. -/
def getFromCache (st : CacheState α) (type key : String) (customTtl : Option Nat)
    (now : Nat) : Option α × CacheState α :=
  match getCat st type with
  | none => (none, st)
  | some m =>
    match mapGet m key with
    | none => (none, st)
    | some entry =>
      let ttl := customTtl.getD cacheTimeout
      let age := now - entry.timestamp
      if age > ttl then (none, setCat st type (mapDelete m key))
      else (some entry.value, st)

/-- `ZoroPlugin.setToCache(type, key, value)` (lines 809-822): store
`{ value, timestamp: Date.now() }`, overwriting unconditionally; an
invalid category only warns and is a no-op. -/
def setToCache (st : CacheState α) (type key : String) (value : α) (now : Nat) :
    CacheState α :=
  match getCat st type with
  | none => st
  | some m => setCat st type (mapSet m key ⟨value, now⟩)

/-- The per-key match test of the sweep inside `clearCacheForMedia`
(lines 834-850): `JSON.parse` the key and test `parsed[k] === id` for
`k` in `exactKeys = ['mediaId']`; a key that fails to parse is skipped
(`catch { continue }`).  The strict equality `===` of a JS number with
the integer `id` holds exactly for the number scalar of that value. -/
def keyMatchesMedia (id : Int) (k : String) : Bool :=
  match tryParseKey k with
  | none => false
  | some fs =>
    match lookupField fs "mediaId" with
    | some (JVal.prim (Scalar.num n)) => n == id
    | _ => false

/-- One `prune(map, cacheType, ['mediaId'])` sweep: delete every key
whose parse matches the id, keep the rest. -/
def pruneMedia (id : Int) (m : CMap α) : CMap α :=
  m.filter (fun e => !(keyMatchesMedia id e.1))

/-- `ZoroPlugin.clearListCaches()` (lines 892-896): clear the whole
`userData` map. -/
def clearListCaches (st : CacheState α) : CacheState α :=
  { st with userData := [] }

/-- `ZoroPlugin.clearCacheForMedia(mediaId)` (lines 825-861).  The
source first runs `parseInt(mediaId, 10)` and returns early when the
result is falsy (`NaN` or `0`); integer arguments are modelled directly,
with the `id = 0` guard covering the falsy case.  Then the sweep runs
over `mediaData`, `userData` and `searchResults`, and finally
`clearListCaches()` empties `userData` wholesale. -/
def clearCacheForMedia (st : CacheState α) (id : Int) : CacheState α :=
  if id = 0 then st
  else
    clearListCaches
      { st with
        mediaData := pruneMedia id st.mediaData
        userData := pruneMedia id st.userData
        searchResults := pruneMedia id st.searchResults }

/-! ### Persistence (`saveCacheToStorage` / `loadCacheFromStorage`) -/

/-- A persisted entry value as it comes back from `JSON.parse`: either a
well-formed `{ value, timestamp }` record (`value` truthy, `timestamp` a
number) or anything else (the load-time check
`value && typeof value.timestamp === 'number'` fails). -/
inductive BlobEntry (α : Type) where
  | good (value : α) (timestamp : Nat)
  | bad
deriving DecidableEq, Repr

/-- A persisted category: an array of `[key, entry]` pairs, or a
non-array value (rejected by `Array.isArray`). -/
inductive BlobCat (α : Type) where
  | entries (l : List (String × BlobEntry α))
  | notArray
deriving DecidableEq, Repr

/-- The persisted blob: category name to persisted category, in object
insertion order. -/
abbrev Blob (α : Type) := List (String × BlobCat α)

/-- `ZoroPlugin.saveCacheToStorage()` (lines 899-915): dump each of the
three maps (in the declaration order of `this.cache`) as an entry
array.  The `JSON.stringify`/`localStorage` step is modelled as the
structured blob itself. -/
def saveCacheToStorage (st : CacheState α) : Blob α :=
  [ ("userData", BlobCat.entries (st.userData.map
      (fun e => (e.1, BlobEntry.good e.2.value e.2.timestamp)))),
    ("mediaData", BlobCat.entries (st.mediaData.map
      (fun e => (e.1, BlobEntry.good e.2.value e.2.timestamp)))),
    ("searchResults", BlobCat.entries (st.searchResults.map
      (fun e => (e.1, BlobEntry.good e.2.value e.2.timestamp)))) ]

/-- Folding one persisted category into the cache: the inner
`entries.forEach` of `loadCacheFromStorage`, keeping an entry only when
it is well-formed and `Date.now() - value.timestamp < ttl`. -/
def loadCat (st : CacheState α) (type : String) (l : List (String × BlobEntry α))
    (now : Nat) : CacheState α :=
  l.foldl
    (fun acc p =>
      match p.2 with
      | BlobEntry.bad => acc
      | BlobEntry.good v ts =>
        if now - ts < ttlFor type then
          match getCat acc type with
          | none => acc
          | some m => setCat acc type (mapSet m p.1 ⟨v, ts⟩)
        else acc)
    st

/-- The input to `loadCacheFromStorage`: `none` when `localStorage` has
no `zoro-cache` item, `Except.error` when `JSON.parse` of the stored
string throws, `Except.ok` for a parsed blob. -/
abbrev LoadInput (α : Type) := Option (Except Unit (Blob α))

/-- `ZoroPlugin.loadCacheFromStorage()` (lines 918-961).  Absent item:
return with the cache untouched.  Parse failure: the `catch` logs a
warning, removes the corrupted item and leaves the cache as it was
(empty at startup) — it never throws.  Otherwise each known category
(`this.cache[type]` truthy, `Array.isArray(entries)`) is folded in,
dropping entries that are malformed or at least as old as the category
TTL. -/
def loadCacheFromStorage (input : LoadInput α) (st : CacheState α) (now : Nat) :
    CacheState α :=
  match input with
  | none => st
  | some (Except.error _) => st
  | some (Except.ok blob) =>
    blob.foldl
      (fun acc p =>
        match p.2 with
        | BlobCat.notArray => acc
        | BlobCat.entries l =>
          match getCat acc p.1 with
          | none => acc
          | some _ => loadCat acc p.1 l now)
      st

/-! ### `Api.fetchZoroData` (lines 128-241)

The network round trip (query construction, token handling, the
`requestUrl` call through the queue and the response checks at lines
210-229) is summarised by a `netResult : Except String α` argument: on
`Except.ok data` the checks passed and `result.data` is `data`; on
`Except.error` one of the throws fired.  What the embedding keeps
faithfully is everything the cache sees: key derivation, category and
TTL selection, the guarded cache read, and the unconditional cache write
on the success path. -/

/-- The cache-category dispatch on `config.type` (lines 133-142). -/
def cacheTypeOf (cfg : Config) : String :=
  if lookupField cfg "type" = some (JVal.prim (Scalar.str "stats")) then "userData"
  else if lookupField cfg "type" = some (JVal.prim (Scalar.str "single")) then "mediaData"
  else if lookupField cfg "type" = some (JVal.prim (Scalar.str "search")) then "searchResults"
  else "userData"

/-- JS truthiness of a configuration field value. -/
def jvalTruthy : JVal → Bool
  | JVal.prim (Scalar.str s) => !(s == "")
  | JVal.prim (Scalar.num n) => !(n == 0)
  | JVal.prim (Scalar.bool b) => b
  | JVal.prim Scalar.null => false
  | JVal.arr _ => true

/-- Truthiness of `config.nocache` (an absent field is `undefined`,
hence falsy). -/
def nocacheTruthy (cfg : Config) : Bool :=
  match lookupField cfg "nocache" with
  | some v => jvalTruthy v
  | none => false

/-- `Api.fetchZoroData(config)`.  The guard
`!config.nocache && this.plugin.getFromCache(...)` short-circuits: with
`nocache` truthy the cache is not even read (so no lazy-expiry deletion
happens).  On a miss the network result is awaited; on success
`setToCache` runs unconditionally (line 232) and `result.data` is
returned.  Cached `result.data` objects are non-null, so the JS
truthiness test `if (cached)` is the `isSome` test on the read. -/
def fetchZoroData (cfg : Config) (netResult : Except String α)
    (st : CacheState α) (now : Nat) : Except String (α × CacheState α) :=
  let cacheKey := createCacheKey cfg
  let cacheType := cacheTypeOf cfg
  let cacheTtl := ttlFor cacheType
  let read : Option α × CacheState α :=
    if nocacheTruthy cfg then (none, st)
    else getFromCache st cacheType cacheKey (some cacheTtl) now
  match read.1 with
  | some v => Except.ok (v, read.2)
  | none =>
    match netResult with
    | Except.error e => Except.error e
    | Except.ok data =>
      Except.ok (data, setToCache read.2 cacheType cacheKey data now)

/-! ### `RequestQueue` (lines 26-74)

`add(requestFn)` pushes `{ requestFn, resolve, reject }` and calls
`process()`; `process()` is single-flight (`isProcessing` guard), shifts
the front task, awaits it, settles the task's own promise, and in
`finally` schedules `isProcessing = false; process()` after `delay`
milliseconds.  On the single-threaded event loop this yields the
following timing: the i-th submitted task starts at the later of its
submission time and the release time `settle + delay` of its
predecessor, runs for its own duration, and settles; its promise is
resolved iff its own operation succeeded.  Submissions are given in
order of the `add` calls with their (necessarily nondecreasing) call
times.  The DOM loader toggling (`showGlobalLoader`/`hideGlobalLoader`)
has no effect on scheduling and is omitted. -/

/-- One submitted operation: how long it runs and whether it resolves. -/
structure QTask where
  duration : Nat
  succeeds : Bool
deriving DecidableEq, Repr

/-- The observable history of one task. -/
structure QEvent where
  submitTime : Nat
  startTime : Nat
  settleTime : Nat
  resolved : Bool
deriving DecidableEq, Repr

/-- `this.delay = 700` (constructor, line 30). -/
def requestDelay : Nat := 700

/-- Execution of the queue from a given release time (the earliest time
the next task may start: `0` initially, `settle + delay` after each
task). -/
def runQueueFrom (delay : Nat) : Nat → List (Nat × QTask) → List QEvent
  | _, [] => []
  | readyAt, (s, t) :: rest =>
    let st := max s readyAt
    let se := st + t.duration
    ⟨s, st, se, t.succeeds⟩ :: runQueueFrom delay (se + delay) rest

/-- The full schedule produced by a sequence of `add` calls. -/
def runQueue (delay : Nat) (subs : List (Nat × QTask)) : List QEvent :=
  runQueueFrom delay 0 subs

/-! ### Lemmas about the queue schedule -/

theorem runQueueFrom_length (delay r : Nat) (subs : List (Nat × QTask)) :
    (runQueueFrom delay r subs).length = subs.length := by
  induction subs generalizing r with
  | nil => rfl
  | cons p rest ih => simp [runQueueFrom, ih]

theorem runQueueFrom_start_ge (delay r : Nat) (subs : List (Nat × QTask)) :
    ∀ e ∈ runQueueFrom delay r subs, r ≤ e.startTime := by
  induction subs generalizing r with
  | nil => intro e he; simp [runQueueFrom] at he
  | cons p rest ih =>
    intro e he
    simp only [runQueueFrom, List.mem_cons] at he
    rcases he with he | he
    · subst he; exact le_max_right _ _
    · have h1 := ih (max p.1 r + p.2.duration + delay) e he
      have h2 : r ≤ max p.1 r + p.2.duration + delay := by
        have := le_max_right p.1 r
        omega
      omega

theorem runQueueFrom_start_le_settle (delay r : Nat) (subs : List (Nat × QTask)) :
    ∀ e ∈ runQueueFrom delay r subs, e.startTime ≤ e.settleTime := by
  induction subs generalizing r with
  | nil => intro e he; simp [runQueueFrom] at he
  | cons p rest ih =>
    intro e he
    simp only [runQueueFrom, List.mem_cons] at he
    rcases he with he | he
    · subst he; simp
    · exact ih _ e he

theorem runQueueFrom_pairwise (delay r : Nat) (subs : List (Nat × QTask)) :
    List.Pairwise
      (fun e1 e2 => e1.startTime ≤ e2.startTime ∧ e1.settleTime + delay ≤ e2.startTime)
      (runQueueFrom delay r subs) := by
  induction subs generalizing r with
  | nil => exact List.Pairwise.nil
  | cons p rest ih =>
    refine List.Pairwise.cons ?_ (ih _)
    intro e he
    have h1 := runQueueFrom_start_ge delay (max p.1 r + p.2.duration + delay) rest e he
    constructor
    · simp only []
      omega
    · simp only []
      omega

theorem runQueueFrom_chain (delay r : Nat) (subs : List (Nat × QTask)) :
    List.Chain' (fun e1 e2 => e1.settleTime + delay ≤ e2.startTime)
      (runQueueFrom delay r subs) :=
  List.Pairwise.chain' ((runQueueFrom_pairwise delay r subs).imp (fun h => h.2))

theorem runQueueFrom_resolved (delay r : Nat) (subs : List (Nat × QTask)) :
    (runQueueFrom delay r subs).map QEvent.resolved
      = subs.map (fun p => p.2.succeeds) := by
  induction subs generalizing r with
  | nil => rfl
  | cons p rest ih => simp [runQueueFrom, ih]

theorem runQueueFrom_timing_congr (delay r : Nat) (subs1 subs2 : List (Nat × QTask))
    (h : List.Forall₂ (fun a b => a.1 = b.1 ∧ a.2.duration = b.2.duration) subs1 subs2) :
    (runQueueFrom delay r subs1).map (fun e => (e.startTime, e.settleTime))
      = (runQueueFrom delay r subs2).map (fun e => (e.startTime, e.settleTime)) := by
  induction h generalizing r with
  | nil => rfl
  | cons hpq _ ih =>
    obtain ⟨hs, hd⟩ := hpq
    simp only [runQueueFrom, List.map_cons, hs, hd]
    rw [ih]

/-! ### Claims about the request queue -/

/-- C2.  For every sequence of `add` calls (submission times
nondecreasing, as call times on the single-threaded event loop are),
the schedule runs exactly one event per task, each task's operation
starts no earlier than the previously started operation both started
and fully settled, and operations of distinct tasks never overlap:
for every earlier/later pair of events, the earlier one settles before
the later one starts. -/
theorem requestQueue_ordering (delay : Nat) (subs : List (Nat × QTask))
    (_hsub : List.Chain' (fun a b => a.1 ≤ b.1) subs) :
    (runQueue delay subs).length = subs.length ∧
    (∀ e ∈ runQueue delay subs, e.startTime ≤ e.settleTime) ∧
    List.Pairwise
      (fun e1 e2 => e1.startTime ≤ e2.startTime ∧ e1.settleTime ≤ e2.startTime)
      (runQueue delay subs) :=
  ⟨runQueueFrom_length delay 0 subs,
   runQueueFrom_start_le_settle delay 0 subs,
   (runQueueFrom_pairwise delay 0 subs).imp (fun h => ⟨h.1, by omega⟩)⟩

theorem requestQueue_ordering_witness :
    List.Chain' (fun a b => a.1 ≤ b.1)
      [((0 : Nat), QTask.mk 50 true), (10, QTask.mk 30 false), (20, QTask.mk 5 true)] ∧
    ((runQueue 700 [((0 : Nat), QTask.mk 50 true), (10, QTask.mk 30 false), (20, QTask.mk 5 true)]).length
        = [((0 : Nat), QTask.mk 50 true), (10, QTask.mk 30 false), (20, QTask.mk 5 true)].length ∧
     (∀ e ∈ runQueue 700 [((0 : Nat), QTask.mk 50 true), (10, QTask.mk 30 false), (20, QTask.mk 5 true)],
        e.startTime ≤ e.settleTime) ∧
     List.Pairwise
       (fun e1 e2 => e1.startTime ≤ e2.startTime ∧ e1.settleTime ≤ e2.startTime)
       (runQueue 700 [((0 : Nat), QTask.mk 50 true), (10, QTask.mk 30 false), (20, QTask.mk 5 true)])) :=
  ⟨by simp [List.chain'_cons, List.chain'_singleton],
   requestQueue_ordering 700
     [((0 : Nat), QTask.mk 50 true), (10, QTask.mk 30 false), (20, QTask.mk 5 true)]
     (by simp [List.chain'_cons, List.chain'_singleton])⟩

/-- C3.  The configured delay defaults to 700 ms, and between any two
consecutive tasks the second operation starts no earlier than
`settle + delay` of the first — the delay is charged after the task
settles, whatever the task's own duration was (the duration only enters
through the settle time itself). -/
theorem requestQueue_throttling (delay : Nat) (subs : List (Nat × QTask))
    (_hsub : List.Chain' (fun a b => a.1 ≤ b.1) subs) :
    requestDelay = 700 ∧
    List.Chain' (fun e1 e2 => e1.settleTime + delay ≤ e2.startTime)
      (runQueue delay subs) :=
  ⟨rfl, runQueueFrom_chain delay 0 subs⟩

theorem requestQueue_throttling_witness :
    List.Chain' (fun a b => a.1 ≤ b.1)
      [((0 : Nat), QTask.mk 1000 true), (1, QTask.mk 3 false)] ∧
    (requestDelay = 700 ∧
     List.Chain' (fun e1 e2 => e1.settleTime + 700 ≤ e2.startTime)
       (runQueue 700 [((0 : Nat), QTask.mk 1000 true), (1, QTask.mk 3 false)])) :=
  ⟨by simp [List.chain'_cons, List.chain'_singleton],
   requestQueue_throttling 700 [((0 : Nat), QTask.mk 1000 true), (1, QTask.mk 3 false)]
     (by simp [List.chain'_cons, List.chain'_singleton])⟩

/-- C9.  A rejecting task does not stop the queue: every submitted task
produces exactly one event, each event is resolved iff its own operation
succeeded (a rejection reaches only that task's promise), the schedule
is the same whatever the success flags of the tasks are, and each later
task still starts only after the standard delay. -/
theorem requestQueue_isolation (delay : Nat) (subs1 subs2 : List (Nat × QTask))
    (hsame : List.Forall₂ (fun a b => a.1 = b.1 ∧ a.2.duration = b.2.duration) subs1 subs2) :
    (runQueue delay subs1).length = subs1.length ∧
    (runQueue delay subs1).map QEvent.resolved = subs1.map (fun p => p.2.succeeds) ∧
    (runQueue delay subs1).map (fun e => (e.startTime, e.settleTime))
      = (runQueue delay subs2).map (fun e => (e.startTime, e.settleTime)) ∧
    List.Chain' (fun e1 e2 => e1.settleTime + delay ≤ e2.startTime)
      (runQueue delay subs1) :=
  ⟨runQueueFrom_length delay 0 subs1,
   runQueueFrom_resolved delay 0 subs1,
   runQueueFrom_timing_congr delay 0 subs1 subs2 hsame,
   runQueueFrom_chain delay 0 subs1⟩

theorem requestQueue_isolation_witness :
    List.Forall₂ (fun a b => a.1 = b.1 ∧ a.2.duration = b.2.duration)
      [((0 : Nat), QTask.mk 50 true), (10, QTask.mk 30 false), (20, QTask.mk 5 true)]
      [((0 : Nat), QTask.mk 50 true), (10, QTask.mk 30 true), (20, QTask.mk 5 true)] ∧
    ((runQueue 700 [((0 : Nat), QTask.mk 50 true), (10, QTask.mk 30 false), (20, QTask.mk 5 true)]).length
        = [((0 : Nat), QTask.mk 50 true), (10, QTask.mk 30 false), (20, QTask.mk 5 true)].length ∧
     (runQueue 700 [((0 : Nat), QTask.mk 50 true), (10, QTask.mk 30 false), (20, QTask.mk 5 true)]).map QEvent.resolved
        = [((0 : Nat), QTask.mk 50 true), (10, QTask.mk 30 false), (20, QTask.mk 5 true)].map (fun p => p.2.succeeds) ∧
     (runQueue 700 [((0 : Nat), QTask.mk 50 true), (10, QTask.mk 30 false), (20, QTask.mk 5 true)]).map
         (fun e => (e.startTime, e.settleTime))
        = (runQueue 700 [((0 : Nat), QTask.mk 50 true), (10, QTask.mk 30 true), (20, QTask.mk 5 true)]).map
            (fun e => (e.startTime, e.settleTime)) ∧
     List.Chain' (fun e1 e2 => e1.settleTime + 700 ≤ e2.startTime)
       (runQueue 700 [((0 : Nat), QTask.mk 50 true), (10, QTask.mk 30 false), (20, QTask.mk 5 true)])) :=
  ⟨by decide,
   requestQueue_isolation 700
     [((0 : Nat), QTask.mk 50 true), (10, QTask.mk 30 false), (20, QTask.mk 5 true)]
     [((0 : Nat), QTask.mk 50 true), (10, QTask.mk 30 true), (20, QTask.mk 5 true)]
     (by decide)⟩

/-- Decidable equality for `Except` results (not derived by core). -/
instance {e a : Type} [DecidableEq e] [DecidableEq a] : DecidableEq (Except e a)
  | Except.error x, Except.error y =>
    if h : x = y then isTrue (by rw [h]) else isFalse (by intro hc; cases hc; exact h rfl)
  | Except.error _, Except.ok _ => isFalse (by intro hc; cases hc)
  | Except.ok _, Except.error _ => isFalse (by intro hc; cases hc)
  | Except.ok x, Except.ok y =>
    if h : x = y then isTrue (by rw [h]) else isFalse (by intro hc; cases hc; exact h rfl)

/-- The three category names accepted by `this.cache[type]`. -/
def validCacheType (type : String) : Prop :=
  type = "userData" ∨ type = "mediaData" ∨ type = "searchResults"

instance (type : String) : Decidable (validCacheType type) := by
  unfold validCacheType; infer_instance

/-- The category map of a state, defaulting to empty for an invalid
category (used only to state facts about valid categories). -/
def catD (st : CacheState α) (type : String) : CMap α :=
  (getCat st type).getD []

/-- Keys of the fields are sorted (weakly) by `strLe`. -/
def sortedKeys (l : List (String × JVal)) : Prop :=
  List.Pairwise (fun a b => strLe a.1 b.1 = true) l

/-- Characters at or above U+0020: the ones `JSON.stringify` copies
into a string literal verbatim (aside from `"` and backslash).  The
round-trip lemmas are stated for strings of such characters; the
query-configuration strings the plugin builds keys from (usernames,
media types, list types, layouts, search text) are of this shape. -/
def plainChar (c : Char) : Bool := decide (32 ≤ c.toNat)

/-- All characters of a string are plain. -/
def strPlain (s : String) : Prop := ∀ c ∈ s.data, plainChar c = true

/-- All string scalars inside a value are plain. -/
def scalarPlain : Scalar → Prop
  | Scalar.str s => strPlain s
  | _ => True

/-- Plainness of a field value. -/
def jvalPlain : JVal → Prop
  | JVal.prim x => scalarPlain x
  | JVal.arr xs => ∀ x ∈ xs, scalarPlain x

/-- Plainness of a whole configuration (keys and string values). -/
def cfgPlain (c : Config) : Prop :=
  ∀ f ∈ c, strPlain f.1 ∧ jvalPlain f.2

/-- The number of array elements of a value (the amount of parser fuel
one field consumes beyond its own step). -/
def jvalSize : JVal → Nat
  | JVal.prim _ => 0
  | JVal.arr xs => xs.length

instance (s : String) : Decidable (strPlain s) :=
  inferInstanceAs (Decidable (∀ c ∈ s.data, plainChar c = true))

instance : (x : Scalar) → Decidable (scalarPlain x)
  | Scalar.str s => inferInstanceAs (Decidable (strPlain s))
  | Scalar.num _ => isTrue trivial
  | Scalar.bool _ => isTrue trivial
  | Scalar.null => isTrue trivial

instance : (v : JVal) → Decidable (jvalPlain v)
  | JVal.prim x => inferInstanceAs (Decidable (scalarPlain x))
  | JVal.arr xs => inferInstanceAs (Decidable (∀ x ∈ xs, scalarPlain x))

instance (c : Config) : Decidable (cfgPlain c) :=
  inferInstanceAs (Decidable (∀ f ∈ c, strPlain f.1 ∧ jvalPlain f.2))

/-- Fuel sufficient for the field-list parser on a configuration: one
unit per field plus the elements of its array values. -/
def cfgFuel : Config → Nat
  | [] => 0
  | f :: fs => jvalSize f.2 + 1 + cfgFuel fs

/-- The inner `entries.forEach` loop of `loadCacheFromStorage` acting on
one category map. -/
def foldEntries (m : CMap α) (l : List (String × BlobEntry α)) (ttl now : Nat) : CMap α :=
  l.foldl
    (fun m2 p =>
      match p.2 with
      | BlobEntry.bad => m2
      | BlobEntry.good v ts => if now - ts < ttl then mapSet m2 p.1 ⟨v, ts⟩ else m2)
    m

/-! ### Lemmas about numerals -/

theorem natDigitsAux_eq (fuel n : Nat) (h : n ≤ fuel) :
    natDigitsAux fuel n = (Nat.digits 10 n).reverse.map digitChar := by
  induction fuel generalizing n with
  | zero =>
    have : n = 0 := Nat.le_zero.mp h
    subst this
    simp [natDigitsAux]
  | succ fuel ih =>
    by_cases hn : n = 0
    · subst hn; simp [natDigitsAux]
    · have hlt : n / 10 < n := Nat.div_lt_self (Nat.pos_of_ne_zero hn) (by norm_num)
      have hle : n / 10 ≤ fuel := by omega
      rw [natDigitsAux, if_neg hn, ih _ hle,
        Nat.digits_def' (by norm_num : (1:Nat) < 10) (Nat.pos_of_ne_zero hn)]
      simp

theorem natDigits_eq (n : Nat) :
    natDigits n = (Nat.digits 10 n).reverse.map digitChar :=
  natDigitsAux_eq n n le_rfl

/-! ### Lemmas about the map operations -/

theorem mapGet_mapSet_self (m : CMap α) (k : String) (e : CacheEntry α) :
    mapGet (mapSet m k e) k = some e := by
  induction m with
  | nil => simp [mapSet, mapGet]
  | cons p rest ih =>
    by_cases h : p.1 = k
    · simp [mapSet, mapGet, h]
    · simp [mapSet, mapGet, h, ih]

theorem mapGet_mapDelete_self (m : CMap α) (k : String) :
    mapGet (mapDelete m k) k = none := by
  induction m with
  | nil => simp [mapDelete, mapGet]
  | cons p rest ih =>
    by_cases h : p.1 = k
    · simpa [mapDelete, h] using ih
    · simpa [mapDelete, mapGet, h] using ih

theorem getCat_setCat_self (st : CacheState α) (type : String) (m : CMap α)
    (h : validCacheType type) : getCat (setCat st type m) type = some m := by
  rcases h with h | h | h <;> subst h <;> simp [getCat, setCat]

/-! ### Claim C4: TTL expiry in `getFromCache` / `setToCache` -/

/-- C4.  An entry written by `setToCache` at time `T` for a valid
category is returned by `getFromCache` with the category TTL `t` at any
time `T + e` with `e < t` (leaving the cache untouched); at any time
with `now - T > t` it is not returned — `null` comes back — and the
entry is deleted from the category map at that moment. -/
theorem cache_ttl_expiry {α : Type} (st : CacheState α) (type key : String) (v : α)
    (T t e now : Nat) (hty : validCacheType type) :
    (e < t →
      (getFromCache (setToCache st type key v T) type key (some t) (T + e)).1 = some v ∧
      (getFromCache (setToCache st type key v T) type key (some t) (T + e)).2
        = setToCache st type key v T) ∧
    (now - T > t →
      (getFromCache (setToCache st type key v T) type key (some t) now).1 = none ∧
      mapGet (catD ((getFromCache (setToCache st type key v T) type key (some t) now).2) type)
        key = none) := by
  rcases hty with h | h | h <;> subst h
  all_goals
    constructor
    · intro he
      simp [setToCache, getFromCache, getCat, setCat, mapGet_mapSet_self,
        Nat.add_sub_cancel_left, Nat.not_lt_of_le (Nat.le_of_lt he), he.le,
        Nat.not_lt.mpr he.le]
    · intro hnow
      simp [setToCache, getFromCache, getCat, setCat, catD, mapGet_mapSet_self,
        mapGet_mapDelete_self, hnow]

theorem cache_ttl_expiry_witness :
    validCacheType "mediaData" ∧
    (((3 : Nat) < 5 →
      (getFromCache (setToCache (emptyCache Nat) "mediaData" "k" 1 10) "mediaData" "k"
          (some 5) (10 + 3)).1 = some 1 ∧
      (getFromCache (setToCache (emptyCache Nat) "mediaData" "k" 1 10) "mediaData" "k"
          (some 5) (10 + 3)).2 = setToCache (emptyCache Nat) "mediaData" "k" 1 10) ∧
     ((100 : Nat) - 10 > 5 →
      (getFromCache (setToCache (emptyCache Nat) "mediaData" "k" 1 10) "mediaData" "k"
          (some 5) 100).1 = none ∧
      mapGet (catD ((getFromCache (setToCache (emptyCache Nat) "mediaData" "k" 1 10)
          "mediaData" "k" (some 5) 100).2) "mediaData") "k" = none)) :=
  ⟨by decide, cache_ttl_expiry (emptyCache Nat) "mediaData" "k" 1 10 5 3 100 (by decide)⟩

/-! ### Claim C1: `nocache` and the cache write in `fetchZoroData`

In the source, `nocache` only guards the cache READ
(`const cached = !config.nocache && this.plugin.getFromCache(...)`,
line 153); the cache WRITE `this.plugin.setToCache(...)` at line 232
runs unconditionally on the success path.  So a `nocache=true` call does
change the cache maps. -/

/-- C1 counterexample.  A `nocache=true` single-media fetch against an
empty cache: the call succeeds with the fresh data, but afterwards the
`mediaData` map holds one entry where it held none before — the cache
maps do not hold the same entries after the call as before it. -/
theorem fetchZoroData_nocache_cex :
    nocacheTruthy
      [("type", JVal.prim (Scalar.str "single")), ("mediaId", JVal.prim (Scalar.num 7)),
       ("nocache", JVal.prim (Scalar.bool true)), ("username", JVal.prim (Scalar.str "alice")),
       ("mediaType", JVal.prim (Scalar.str "ANIME"))] = true ∧
    fetchZoroData
      [("type", JVal.prim (Scalar.str "single")), ("mediaId", JVal.prim (Scalar.num 7)),
       ("nocache", JVal.prim (Scalar.bool true)), ("username", JVal.prim (Scalar.str "alice")),
       ("mediaType", JVal.prim (Scalar.str "ANIME"))]
      (Except.ok (5 : Nat)) (emptyCache Nat) 0
      = Except.ok (5,
          { emptyCache Nat with
            mediaData :=
              [(createCacheKey
                  [("type", JVal.prim (Scalar.str "single")), ("mediaId", JVal.prim (Scalar.num 7)),
       ("nocache", JVal.prim (Scalar.bool true)), ("username", JVal.prim (Scalar.str "alice")),
       ("mediaType", JVal.prim (Scalar.str "ANIME"))],
                ⟨5, 0⟩)] }) ∧
    ({ emptyCache Nat with
       mediaData :=
         [(createCacheKey
             [("type", JVal.prim (Scalar.str "single")), ("mediaId", JVal.prim (Scalar.num 7)),
       ("nocache", JVal.prim (Scalar.bool true)), ("username", JVal.prim (Scalar.str "alice")),
       ("mediaType", JVal.prim (Scalar.str "ANIME"))],
           ⟨5, 0⟩)] } : CacheState Nat).mediaData ≠ (emptyCache Nat).mediaData := by
  refine ⟨by decide, by decide, by decide⟩

/-- C1 as amended.  With `nocache` truthy the cache read is bypassed
(the network result is returned whatever the cache holds, and no
lazy-expiry deletion happens — the state passed on is `st` itself), but
the write is not: on success the fetched data is stored through
`setToCache`; on failure the error propagates with the cache untouched
inside the call. -/
theorem fetchZoroData_nocache_amended {α : Type} (cfg : Config) (d : α)
    (st : CacheState α) (now : Nat) (h : nocacheTruthy cfg = true) :
    fetchZoroData cfg (Except.ok d) st now
      = Except.ok (d, setToCache st (cacheTypeOf cfg) (createCacheKey cfg) d now) ∧
    (∀ msg : String, fetchZoroData cfg (Except.error msg) st now = Except.error msg) := by
  unfold fetchZoroData
  simp [h]

/-- Witness for the amended C1: the cache already holds a fresh entry
with value `99` under the very key of the request, yet the call returns
the network value `5` and overwrites the entry. -/
theorem fetchZoroData_nocache_amended_witness :
    nocacheTruthy
      [("type", JVal.prim (Scalar.str "single")), ("mediaId", JVal.prim (Scalar.num 7)),
       ("nocache", JVal.prim (Scalar.bool true)), ("username", JVal.prim (Scalar.str "alice")),
       ("mediaType", JVal.prim (Scalar.str "ANIME"))] = true ∧
    (fetchZoroData
      [("type", JVal.prim (Scalar.str "single")), ("mediaId", JVal.prim (Scalar.num 7)),
       ("nocache", JVal.prim (Scalar.bool true)), ("username", JVal.prim (Scalar.str "alice")),
       ("mediaType", JVal.prim (Scalar.str "ANIME"))]
      (Except.ok (5 : Nat))
      { emptyCache Nat with
        mediaData :=
          [(createCacheKey
              [("type", JVal.prim (Scalar.str "single")), ("mediaId", JVal.prim (Scalar.num 7)),
       ("nocache", JVal.prim (Scalar.bool true)), ("username", JVal.prim (Scalar.str "alice")),
       ("mediaType", JVal.prim (Scalar.str "ANIME"))],
            ⟨99, 0⟩)] } 0
      = Except.ok (5,
          setToCache
            { emptyCache Nat with
              mediaData :=
                [(createCacheKey
                    [("type", JVal.prim (Scalar.str "single")), ("mediaId", JVal.prim (Scalar.num 7)),
       ("nocache", JVal.prim (Scalar.bool true)), ("username", JVal.prim (Scalar.str "alice")),
       ("mediaType", JVal.prim (Scalar.str "ANIME"))],
                  ⟨99, 0⟩)] }
            (cacheTypeOf
              [("type", JVal.prim (Scalar.str "single")), ("mediaId", JVal.prim (Scalar.num 7)),
       ("nocache", JVal.prim (Scalar.bool true)), ("username", JVal.prim (Scalar.str "alice")),
       ("mediaType", JVal.prim (Scalar.str "ANIME"))])
            (createCacheKey
              [("type", JVal.prim (Scalar.str "single")), ("mediaId", JVal.prim (Scalar.num 7)),
       ("nocache", JVal.prim (Scalar.bool true)), ("username", JVal.prim (Scalar.str "alice")),
       ("mediaType", JVal.prim (Scalar.str "ANIME"))])
            5 0) ∧
    (∀ msg : String,
      fetchZoroData
        [("type", JVal.prim (Scalar.str "single")), ("mediaId", JVal.prim (Scalar.num 7)),
       ("nocache", JVal.prim (Scalar.bool true)), ("username", JVal.prim (Scalar.str "alice")),
       ("mediaType", JVal.prim (Scalar.str "ANIME"))]
        (Except.error msg)
        { emptyCache Nat with
          mediaData :=
            [(createCacheKey
                [("type", JVal.prim (Scalar.str "single")), ("mediaId", JVal.prim (Scalar.num 7)),
       ("nocache", JVal.prim (Scalar.bool true)), ("username", JVal.prim (Scalar.str "alice")),
       ("mediaType", JVal.prim (Scalar.str "ANIME"))],
              ⟨99, 0⟩)] } 0 = Except.error msg)) :=
  ⟨by decide,
   fetchZoroData_nocache_amended
     [("type", JVal.prim (Scalar.str "single")), ("mediaId", JVal.prim (Scalar.num 7)),
       ("nocache", JVal.prim (Scalar.bool true)), ("username", JVal.prim (Scalar.str "alice")),
       ("mediaType", JVal.prim (Scalar.str "ANIME"))]
     5
     { emptyCache Nat with
       mediaData :=
         [(createCacheKey
             [("type", JVal.prim (Scalar.str "single")), ("mediaId", JVal.prim (Scalar.num 7)),
       ("nocache", JVal.prim (Scalar.bool true)), ("username", JVal.prim (Scalar.str "alice")),
       ("mediaType", JVal.prim (Scalar.str "ANIME"))],
           ⟨99, 0⟩)] }
     0 (by decide)⟩

/-! ### Claim C7: order independence of `createCacheKey` -/

theorem charListLe_total : ∀ as bs : List Char,
    charListLe as bs = true ∨ charListLe bs as = true := by
  intro as
  induction as with
  | nil => intro bs; left; cases bs <;> simp [charListLe]
  | cons a at1 ih =>
    intro bs
    cases bs with
    | nil => right; simp [charListLe]
    | cons b bt =>
      by_cases h1 : a.toNat < b.toNat
      · left; simp [charListLe, h1]
      · by_cases h2 : b.toNat < a.toNat
        · right; simp [charListLe, h1, h2]
        · rcases ih bt with h | h
          · left; simp [charListLe, h1, h2, h]
          · right; simp [charListLe, h1, h2, h]

theorem charListLe_antisymm : ∀ as bs : List Char,
    charListLe as bs = true → charListLe bs as = true → as = bs := by
  intro as
  induction as with
  | nil =>
    intro bs h1 h2
    cases bs with
    | nil => rfl
    | cons b bt => simp [charListLe] at h2
  | cons a at1 ih =>
    intro bs h1 h2
    cases bs with
    | nil => simp [charListLe] at h1
    | cons b bt =>
      by_cases hab : a.toNat < b.toNat
      · simp [charListLe, hab, Nat.not_lt_of_lt hab] at h2
      · by_cases hba : b.toNat < a.toNat
        · simp [charListLe, hab, hba] at h1
        · have hv : a = b := by
            have hn : a.val.toNat = b.val.toNat := by
              simp only [Char.toNat] at hab hba
              omega
            exact Char.eq_of_val_eq (UInt32.ext hn)
          subst hv
          simp [charListLe, hab, hba] at h1 h2
          rw [ih bt h1 h2]

theorem charListLe_trans : ∀ as bs cs : List Char,
    charListLe as bs = true → charListLe bs cs = true → charListLe as cs = true := by
  intro as
  induction as with
  | nil => intro bs cs h1 h2; cases cs <;> simp [charListLe]
  | cons a at1 ih =>
    intro bs cs h1 h2
    cases bs with
    | nil => simp [charListLe] at h1
    | cons b bt =>
      cases cs with
      | nil => simp [charListLe] at h2
      | cons c ct =>
        by_cases hba : b.toNat < a.toNat
        · simp [charListLe, Nat.not_lt_of_lt hba, hba] at h1
        · by_cases hcb : c.toNat < b.toNat
          · simp [charListLe, Nat.not_lt_of_lt hcb, hcb] at h2
          · by_cases hab : a.toNat < b.toNat
            · have hac : a.toNat < c.toNat := by omega
              simp [charListLe, hac]
            · by_cases hbc : b.toNat < c.toNat
              · have hac : a.toNat < c.toNat := by omega
                simp [charListLe, hac]
              · have h1r : charListLe at1 bt = true := by
                  simpa [charListLe, hab, hba] using h1
                have h2r : charListLe bt ct = true := by
                  simpa [charListLe, hbc, hcb] using h2
                have hac : ¬ a.toNat < c.toNat := by omega
                have hca : ¬ c.toNat < a.toNat := by omega
                simpa [charListLe, hac, hca] using ih bt ct h1r h2r

theorem strLe_total (a b : String) : strLe a b = true ∨ strLe b a = true :=
  charListLe_total a.data b.data

theorem strLe_antisymm (a b : String) (h1 : strLe a b = true) (h2 : strLe b a = true) :
    a = b := by
  cases a with
  | mk da =>
    cases b with
    | mk db =>
      have := charListLe_antisymm da db h1 h2
      rw [this]

theorem strLe_trans (a b c : String) (h1 : strLe a b = true) (h2 : strLe b c = true) :
    strLe a c = true :=
  charListLe_trans a.data b.data c.data h1 h2

theorem insertField_perm (p : String × JVal) :
    ∀ l : List (String × JVal), List.Perm (insertField p l) (p :: l) := by
  intro l
  induction l with
  | nil => simp [insertField]
  | cons q rest ih =>
    by_cases h : strLe p.1 q.1 = true
    · simp [insertField, h]
    · simp only [insertField, h]
      simp only [Bool.false_eq_true, if_false]
      exact (ih.cons q).trans (List.Perm.swap p q rest)

theorem sortFields_perm (c : Config) : List.Perm (sortFields c) c := by
  induction c with
  | nil => simp [sortFields]
  | cons p rest ih =>
    exact (insertField_perm p (sortFields rest)).trans (ih.cons p)

theorem mem_insertField {x p : String × JVal} {l : List (String × JVal)}
    (h : x ∈ insertField p l) : x = p ∨ x ∈ l := by
  have := (insertField_perm p l).mem_iff.mp h
  simpa using this

theorem insertField_sorted (p : String × JVal) (l : List (String × JVal))
    (h : sortedKeys l) : sortedKeys (insertField p l) := by
  induction l with
  | nil => simp [insertField, sortedKeys]
  | cons q rest ih =>
    rcases h with _ | ⟨hq, hrest⟩
    by_cases hpq : strLe p.1 q.1 = true
    · simp only [insertField, hpq, if_true]
      refine List.Pairwise.cons ?_ (List.Pairwise.cons hq hrest)
      intro x hx
      rcases List.mem_cons.mp hx with hx | hx
      · subst hx; exact hpq
      · exact strLe_trans _ _ _ hpq (hq x hx)
    · simp only [insertField, hpq]
      simp only [Bool.false_eq_true, if_false]
      refine List.Pairwise.cons ?_ (ih hrest)
      intro x hx
      rcases mem_insertField hx with hx | hx
      · subst hx
        rcases strLe_total x.1 q.1 with h | h
        · exact absurd h hpq
        · exact h
      · exact hq x hx

theorem sortFields_sorted (c : Config) : sortedKeys (sortFields c) := by
  induction c with
  | nil => exact List.Pairwise.nil
  | cons p rest ih => exact insertField_sorted p (sortFields rest) ih

/-- A key-sorted field list with distinct keys is determined by its
multiset of fields. -/
theorem sorted_nodup_eq : ∀ l1 l2 : List (String × JVal),
    List.Perm l1 l2 → sortedKeys l1 → sortedKeys l2 →
    (l1.map Prod.fst).Nodup → l1 = l2 := by
  intro l1
  induction l1 with
  | nil => intro l2 hp _ _ _; exact (List.Perm.nil_eq hp).symm ▸ rfl
  | cons a t1 ih =>
    intro l2 hp hs1 hs2 hnd
    cases l2 with
    | nil => exact absurd hp.symm (by simp)
    | cons b t2 =>
      rcases hs1 with _ | ⟨ha, ht1⟩
      rcases hs2 with _ | ⟨hb, ht2⟩
      have hab : a = b := by
        have hamem : a ∈ b :: t2 := hp.mem_iff.mp (List.mem_cons_self a t1)
        rcases List.mem_cons.mp hamem with h | h
        · exact h
        · have hbmem : b ∈ a :: t1 := hp.symm.mem_iff.mp (List.mem_cons_self b t2)
          rcases List.mem_cons.mp hbmem with h2 | h2
          · exact h2.symm
          · have h3 : strLe a.1 b.1 = true := ha b h2
            have h4 : strLe b.1 a.1 = true := hb a h
            have hkey : a.1 = b.1 := strLe_antisymm _ _ h3 h4
            rcases List.nodup_cons.mp hnd with ⟨hnmem, _⟩
            exact absurd (hkey ▸ (List.mem_map_of_mem Prod.fst h2)) hnmem
      subst hab
      have hpt : List.Perm t1 t2 := hp.cons_inv
      have : t1 = t2 := ih t2 hpt ht1 ht2 (List.nodup_cons.mp hnd).2
      rw [this]

/-- C7.  `createCacheKey` is insertion-order independent: two
configurations holding the same fields (a permutation of one another,
keys distinct as JS object keys are) produce the identical key string.
Determinism and purity are structural: the embedding is a function of
the configuration alone, with no clock or state argument. -/
theorem createCacheKey_order_independent (c1 c2 : Config)
    (hperm : List.Perm c1 c2) (hnd : (c1.map Prod.fst).Nodup) :
    createCacheKey c1 = createCacheKey c2 := by
  have h1 : List.Perm (sortFields c1) (sortFields c2) :=
    (sortFields_perm c1).trans (hperm.trans (sortFields_perm c2).symm)
  have hnd1 : ((sortFields c1).map Prod.fst).Nodup :=
    (((sortFields_perm c1).map Prod.fst).nodup_iff).mpr hnd
  have : sortFields c1 = sortFields c2 :=
    sorted_nodup_eq _ _ h1 (sortFields_sorted c1) (sortFields_sorted c2) hnd1
  unfold createCacheKey
  rw [this]

theorem createCacheKey_order_independent_witness :
    (List.Perm
      [("username", JVal.prim (Scalar.str "alice")), ("type", JVal.prim (Scalar.str "stats"))]
      [("type", JVal.prim (Scalar.str "stats")), ("username", JVal.prim (Scalar.str "alice"))] ∧
     ([("username", JVal.prim (Scalar.str "alice")),
       ("type", JVal.prim (Scalar.str "stats"))].map Prod.fst).Nodup) ∧
    createCacheKey
      [("username", JVal.prim (Scalar.str "alice")), ("type", JVal.prim (Scalar.str "stats"))]
      = createCacheKey
          [("type", JVal.prim (Scalar.str "stats")), ("username", JVal.prim (Scalar.str "alice"))] :=
  ⟨⟨List.Perm.swap ("type", JVal.prim (Scalar.str "stats"))
      ("username", JVal.prim (Scalar.str "alice")) [], by decide⟩,
   createCacheKey_order_independent
     [("username", JVal.prim (Scalar.str "alice")), ("type", JVal.prim (Scalar.str "stats"))]
     [("type", JVal.prim (Scalar.str "stats")), ("username", JVal.prim (Scalar.str "alice"))]
     (List.Perm.swap ("type", JVal.prim (Scalar.str "stats"))
       ("username", JVal.prim (Scalar.str "alice")) [])
     (by decide)⟩

/-! ### Round trip: the parser inverts the serializer

These lemmas show that `tryParseKey` recovers the (sorted) field list
from the string `createCacheKey` built, for configurations whose
strings consist of characters at or above U+0020.  They back the
key-distinctness and invalidation claims. -/

theorem string_mk_data (s : String) : String.mk s.data = s := by
  cases s
  rfl

theorem ne_of_toNat_lt {c d : Char} (h : 32 ≤ c.toNat) (hd : d.toNat < 32) : c ≠ d := by
  intro he
  subst he
  omega

theorem escapeChar_plain {c : Char} (h : plainChar c = true) (hq : c ≠ '"') (hb : c ≠ '\\') :
    escapeChar c = [c] := by
  have h32 : 32 ≤ c.toNat := by simpa [plainChar] using h
  unfold escapeChar
  rw [if_neg hq, if_neg hb,
    if_neg (ne_of_toNat_lt h32 (by decide)),
    if_neg (ne_of_toNat_lt h32 (by decide)),
    if_neg (ne_of_toNat_lt h32 (by decide)),
    if_neg (ne_of_toNat_lt h32 (by decide)),
    if_neg (ne_of_toNat_lt h32 (by decide)),
    if_neg (by omega)]

theorem pStrAux_closing (X : List Char) : pStrAux ('"' :: X) = some ([], X) := by
  rw [pStrAux.eq_def]
  exact rfl

theorem pStrAux_esc_quote (X : List Char) :
    pStrAux ('\\' :: '"' :: X) = consStr '"' (pStrAux X) := by
  rw [pStrAux.eq_def]
  exact rfl

theorem pStrAux_esc_backslash (X : List Char) :
    pStrAux ('\\' :: '\\' :: X) = consStr '\\' (pStrAux X) := by
  rw [pStrAux.eq_def]
  exact rfl

theorem pStrAux_plain (c : Char) (X : List Char) (hq : c ≠ '"') (hb : c ≠ '\\') :
    pStrAux (c :: X) = consStr c (pStrAux X) := by
  rw [pStrAux.eq_def]
  simp only [if_neg hq, if_neg hb]

theorem consStr_some (c : Char) (s : List Char) (r : List Char) :
    consStr c (some (s, r)) = some (c :: s, r) := rfl

theorem pStrAux_round (s : List Char) (rest : List Char)
    (h : ∀ c ∈ s, plainChar c = true) :
    pStrAux (escapeList s ++ '"' :: rest) = some (s, rest) := by
  induction s with
  | nil => simpa [escapeList] using pStrAux_closing rest
  | cons c cs ih =>
    have hc : plainChar c = true := h c (List.mem_cons_self c cs)
    have hcs : ∀ x ∈ cs, plainChar x = true := fun x hx => h x (List.mem_cons_of_mem c hx)
    by_cases hq : c = '"'
    · subst hq
      rw [escapeList, show escapeChar '"' = ['\\', '"'] from rfl]
      simp only [List.cons_append, List.append_assoc, List.nil_append]
      rw [pStrAux_esc_quote, ih hcs, consStr_some]
    · by_cases hb : c = '\\'
      · subst hb
        rw [escapeList, show escapeChar '\\' = ['\\', '\\'] from rfl]
        simp only [List.cons_append, List.append_assoc, List.nil_append]
        rw [pStrAux_esc_backslash, ih hcs, consStr_some]
      · rw [escapeList, escapeChar_plain hc hq hb]
        simp only [List.cons_append, List.nil_append]
        rw [pStrAux_plain c _ hq hb, ih hcs, consStr_some]

/-! ### Round trip: numerals -/

theorem digitChar_toNat (d : Nat) (h : d < 10) : (digitChar d).toNat = 48 + d := by
  interval_cases d <;> decide

theorem isDigitCh_digitChar (d : Nat) (h : d < 10) : isDigitCh (digitChar d) = true := by
  interval_cases d <;> decide

theorem digitVal_digitChar (d : Nat) (h : d < 10) : digitVal (digitChar d) = d := by
  unfold digitVal
  rw [digitChar_toNat d h]
  omega

theorem natStr_digits (n : Nat) : ∀ c ∈ natStr n, isDigitCh c = true := by
  intro c hc
  unfold natStr at hc
  by_cases h : n = 0
  · simp [h] at hc
    subst hc
    decide
  · rw [if_neg h, natDigits_eq] at hc
    rcases List.mem_map.mp hc with ⟨d, hd, rfl⟩
    have hd10 : d < 10 :=
      Nat.digits_lt_base (by norm_num) (List.mem_reverse.mp hd)
    exact isDigitCh_digitChar d hd10

theorem natStr_ne_nil (n : Nat) : natStr n ≠ [] := by
  unfold natStr
  by_cases h : n = 0
  · simp [h]
  · rw [if_neg h, natDigits_eq]
    simp [Nat.digits_ne_nil_iff_ne_zero, h]

theorem takeWhile_all_append {α : Type} (p : α → Bool) :
    ∀ (l1 : List α) (c : α) (r : List α), (∀ x ∈ l1, p x = true) → p c = false →
    (l1 ++ c :: r).takeWhile p = l1 ∧ (l1 ++ c :: r).dropWhile p = c :: r := by
  intro l1
  induction l1 with
  | nil =>
    intro c r _ hc
    simp [List.takeWhile, List.dropWhile, hc]
  | cons x xs ih =>
    intro c r hall hc
    have hx : p x = true := hall x (List.mem_cons_self x xs)
    have hxs : ∀ y ∈ xs, p y = true := fun y hy => hall y (List.mem_cons_of_mem x hy)
    obtain ⟨ht, hd⟩ := ih c r hxs hc
    simp [List.takeWhile, List.dropWhile, hx, ht, hd]

theorem foldl_digits_eq (L : List Nat) (hL : ∀ d ∈ L, d < 10) :
    ((L.reverse.map digitChar).foldl (fun a c => 10 * a + digitVal c) 0) = Nat.ofDigits 10 L := by
  induction L with
  | nil => simp [Nat.ofDigits_nil]
  | cons d L ih =>
    have hd : d < 10 := hL d (List.mem_cons_self d L)
    have hLt : ∀ x ∈ L, x < 10 := fun x hx => hL x (List.mem_cons_of_mem d hx)
    rw [List.reverse_cons, List.map_append, List.foldl_append, ih hLt]
    simp [Nat.ofDigits_cons, digitVal_digitChar d hd]
    omega

theorem natStr_value (n : Nat) :
    (natStr n).foldl (fun a c => 10 * a + digitVal c) 0 = n := by
  unfold natStr
  by_cases h : n = 0
  · simp [h]
    decide
  · rw [if_neg h, natDigits_eq, foldl_digits_eq _ (fun d hd => Nat.digits_lt_base (by norm_num) hd),
      Nat.ofDigits_digits]

theorem pNat_round (n : Nat) (c : Char) (r : List Char) (hc : isDigitCh c = false) :
    pNat (natStr n ++ c :: r) = some (n, c :: r) := by
  obtain ⟨ht, hd⟩ := takeWhile_all_append isDigitCh (natStr n) c r (natStr_digits n) hc
  unfold pNat
  simp only [ht, hd]
  rw [if_neg (by simp [List.isEmpty_iff, natStr_ne_nil n])]
  rw [natStr_value]

theorem isDigitCh_ne_minus {d : Char} (h : isDigitCh d = true) : d ≠ '-' := by
  intro he
  subst he
  exact absurd h (by decide)

theorem bindPair_some {A B : Type} (a : A) (b : List Char) (f : A → List Char → Option B) :
    bindPair (some (a, b)) f = f a b := rfl

theorem pInt_cons (d : Char) (X : List Char) :
    pInt (d :: X) =
      if d = '-' then bindPair (pNat X) (fun n r => some (-(n : Int), r))
      else bindPair (pNat (d :: X)) (fun n r => some ((n : Int), r)) := rfl

theorem pInt_round (m : Int) (c : Char) (r : List Char) (hc : isDigitCh c = false) :
    pInt (intStr m ++ c :: r) = some (m, c :: r) := by
  cases m with
  | ofNat n =>
    obtain ⟨d, ds, heq⟩ := List.exists_cons_of_ne_nil (natStr_ne_nil n)
    have hdd : isDigitCh d = true := by
      apply natStr_digits n
      rw [heq]
      exact List.mem_cons_self d ds
    rw [show intStr (Int.ofNat n) = natStr n from rfl, heq, List.cons_append, pInt_cons,
      if_neg (isDigitCh_ne_minus hdd), ← List.cons_append, ← heq, pNat_round n c r hc,
      bindPair_some]
    exact rfl
  | negSucc k =>
    rw [show intStr (Int.negSucc k) = '-' :: natStr (k + 1) from rfl, List.cons_append,
      pInt_cons, if_pos rfl, pNat_round (k + 1) c r hc, bindPair_some]
    simp [Int.negSucc_eq]


/-! ### Round trip: scalars, arrays and values -/

theorem isDigitCh_ne_of {d e : Char} (h : isDigitCh d = true) (he : isDigitCh e = false) :
    d ≠ e := by
  intro hde
  subst hde
  rw [h] at he
  cases he

theorem pScalar_cons (c : Char) (X : List Char) :
    pScalar (c :: X) =
      (if c = '"' then
        bindPair (pStrAux X) (fun s r => some (Scalar.str (String.mk s), r))
      else if c = 't' then
        match X with
        | 'r' :: 'u' :: 'e' :: r => some (Scalar.bool true, r)
        | _ => none
      else if c = 'f' then
        match X with
        | 'a' :: 'l' :: 's' :: 'e' :: r => some (Scalar.bool false, r)
        | _ => none
      else if c = 'n' then
        match X with
        | 'u' :: 'l' :: 'l' :: r => some (Scalar.null, r)
        | _ => none
      else
        bindPair (pInt (c :: X)) (fun n r => some (Scalar.num n, r))) := rfl

theorem intStr_head (m : Int) :
    ∃ d ds, intStr m = d :: ds ∧ (isDigitCh d = true ∨ d = '-') := by
  cases m with
  | ofNat n =>
    obtain ⟨d, ds, heq⟩ := List.exists_cons_of_ne_nil (natStr_ne_nil n)
    refine ⟨d, ds, heq, Or.inl ?_⟩
    apply natStr_digits n
    rw [heq]
    exact List.mem_cons_self d ds
  | negSucc k => exact ⟨'-', natStr (k + 1), rfl, Or.inr rfl⟩

theorem pScalar_round (x : Scalar) (hx : scalarPlain x) (c : Char) (r : List Char)
    (hcd : isDigitCh c = false) :
    pScalar (serScalar x ++ c :: r) = some (x, c :: r) := by
  cases x with
  | str s =>
    rw [show serScalar (Scalar.str s) = '"' :: (escapeList s.data ++ ['"']) from rfl]
    simp only [List.cons_append, List.append_assoc, List.singleton_append, List.nil_append]
    rw [pScalar_cons, if_pos rfl, pStrAux_round s.data (c :: r) hx, bindPair_some]
  | num m =>
    obtain ⟨d, ds, heq, hd⟩ := intStr_head m
    have h1 : d ≠ '"' := by
      rcases hd with hd | hd
      · exact isDigitCh_ne_of hd (by decide)
      · subst hd; decide
    have h2 : d ≠ 't' := by
      rcases hd with hd | hd
      · exact isDigitCh_ne_of hd (by decide)
      · subst hd; decide
    have h3 : d ≠ 'f' := by
      rcases hd with hd | hd
      · exact isDigitCh_ne_of hd (by decide)
      · subst hd; decide
    have h4 : d ≠ 'n' := by
      rcases hd with hd | hd
      · exact isDigitCh_ne_of hd (by decide)
      · subst hd; decide
    rw [show serScalar (Scalar.num m) = intStr m from rfl, heq, List.cons_append,
      pScalar_cons, if_neg h1, if_neg h2, if_neg h3, if_neg h4,
      ← List.cons_append, ← heq, pInt_round m c r hcd, bindPair_some]
  | bool b =>
    cases b with
    | true =>
      rw [show serScalar (Scalar.bool true) = ['t', 'r', 'u', 'e'] from rfl]
      simp only [List.cons_append, List.nil_append]
      rw [pScalar_cons]
      exact rfl
    | false =>
      rw [show serScalar (Scalar.bool false) = ['f', 'a', 'l', 's', 'e'] from rfl]
      simp only [List.cons_append, List.nil_append]
      rw [pScalar_cons]
      exact rfl
  | null =>
    rw [show serScalar Scalar.null = ['n', 'u', 'l', 'l'] from rfl]
    simp only [List.cons_append, List.nil_append]
    rw [pScalar_cons]
    exact rfl

theorem pArrTail_rbracket (fuel : Nat) (X : List Char) :
    pArrTail fuel (']' :: X) = some ([], X) := by
  rw [pArrTail.eq_def]
  exact rfl

theorem pArrTail_comma (f : Nat) (X : List Char) :
    pArrTail (f + 1) (',' :: X) =
      bindPair (pScalar X) (fun x r =>
        bindPair (pArrTail f r) (fun xs r2 => some (x :: xs, r2))) := by
  rw [pArrTail.eq_def]
  exact rfl

theorem serArrTail_head (xs : List Scalar) :
    ∃ t ts, serArrTail xs = t :: ts ∧ (t = ',' ∨ t = ']') := by
  cases xs with
  | nil => exact ⟨']', [], rfl, Or.inr rfl⟩
  | cons x xs => exact ⟨',', serScalar x ++ serArrTail xs, rfl, Or.inl rfl⟩

theorem pArrTail_round (xs : List Scalar) :
    ∀ (fuel : Nat) (r : List Char), (∀ x ∈ xs, scalarPlain x) → xs.length ≤ fuel →
    pArrTail fuel (serArrTail xs ++ r) = some (xs, r) := by
  induction xs with
  | nil =>
    intro fuel r _ _
    rw [show serArrTail [] = [']'] from rfl, List.singleton_append, pArrTail_rbracket]
  | cons x xs ih =>
    intro fuel r hplain hfuel
    obtain ⟨f, rfl⟩ : ∃ f, fuel = f + 1 := by
      cases fuel with
      | zero => simp at hfuel
      | succ f => exact ⟨f, rfl⟩
    have hx : scalarPlain x := hplain x (List.mem_cons_self x xs)
    have hxs : ∀ y ∈ xs, scalarPlain y := fun y hy => hplain y (List.mem_cons_of_mem x hy)
    obtain ⟨t, ts, ht, htd⟩ := serArrTail_head xs
    have htnd : isDigitCh t = false := by
      rcases htd with h | h <;> subst h <;> decide
    rw [show serArrTail (x :: xs) = ',' :: (serScalar x ++ serArrTail xs) from rfl,
      List.cons_append, pArrTail_comma, List.append_assoc, ht, List.cons_append,
      pScalar_round x hx t (ts ++ r) htnd, bindPair_some]
    rw [show (t :: (ts ++ r)) = (t :: ts) ++ r from rfl, ← ht,
      ih f r hxs (by simp [List.length_cons] at hfuel; omega), bindPair_some]

theorem pArr_cons (c : Char) (fuel : Nat) (X : List Char) :
    pArr fuel (c :: X) =
      if c = ']' then some ([], X)
      else
        bindPair (pScalar (c :: X)) (fun x r =>
          bindPair (pArrTail fuel r) (fun xs r2 => some (x :: xs, r2))) := rfl

theorem serScalar_head_ne (x : Scalar) :
    ∃ d ds, serScalar x = d :: ds ∧ d ≠ '[' ∧ d ≠ ']' := by
  cases x with
  | str s => exact ⟨'"', escapeList s.data ++ ['"'], rfl, by decide, by decide⟩
  | num m =>
    obtain ⟨d, ds, heq, hd⟩ := intStr_head m
    refine ⟨d, ds, heq, ?_, ?_⟩
    · rcases hd with h | h
      · exact isDigitCh_ne_of h (by decide)
      · subst h; decide
    · rcases hd with h | h
      · exact isDigitCh_ne_of h (by decide)
      · subst h; decide
  | bool b =>
    cases b with
    | true => exact ⟨'t', ['r', 'u', 'e'], rfl, by decide, by decide⟩
    | false => exact ⟨'f', ['a', 'l', 's', 'e'], rfl, by decide, by decide⟩
  | null => exact ⟨'n', ['u', 'l', 'l'], rfl, by decide, by decide⟩

theorem pArr_round (xs : List Scalar) (fuel : Nat) (r : List Char)
    (hplain : ∀ x ∈ xs, scalarPlain x) (hfuel : xs.length ≤ fuel) :
    pArr fuel (serArrBody xs ++ r) = some (xs, r) := by
  cases xs with
  | nil =>
    rw [show serArrBody [] = [']'] from rfl, List.singleton_append, pArr_cons, if_pos rfl]
  | cons x xs2 =>
    have hx : scalarPlain x := hplain x (List.mem_cons_self x xs2)
    have hxs : ∀ y ∈ xs2, scalarPlain y := fun y hy => hplain y (List.mem_cons_of_mem x hy)
    obtain ⟨d, ds, heq, hd1, hd2⟩ := serScalar_head_ne x
    obtain ⟨t, ts, ht, htd⟩ := serArrTail_head xs2
    have htnd : isDigitCh t = false := by
      rcases htd with h | h <;> subst h <;> decide
    rw [show serArrBody (x :: xs2) = serScalar x ++ serArrTail xs2 from rfl,
      List.append_assoc, heq, List.cons_append, pArr_cons, if_neg hd2,
      ← List.cons_append, ← heq, ht, List.cons_append,
      pScalar_round x hx t (ts ++ r) htnd, bindPair_some]
    rw [show (t :: (ts ++ r)) = (t :: ts) ++ r from rfl, ← ht,
      pArrTail_round xs2 fuel r hxs (by simp [List.length_cons] at hfuel; omega),
      bindPair_some]

theorem pVal_cons (c : Char) (fuel : Nat) (X : List Char) :
    pVal fuel (c :: X) =
      if c = '[' then bindPair (pArr fuel X) (fun xs r => some (JVal.arr xs, r))
      else bindPair (pScalar (c :: X)) (fun x r => some (JVal.prim x, r)) := rfl

theorem pVal_round (v : JVal) (fuel : Nat) (c : Char) (r : List Char)
    (hv : jvalPlain v) (hfuel : jvalSize v ≤ fuel) (hcd : isDigitCh c = false) :
    pVal fuel (serVal v ++ c :: r) = some (v, c :: r) := by
  cases v with
  | prim x =>
    obtain ⟨d, ds, heq, hd1, _⟩ := serScalar_head_ne x
    rw [show serVal (JVal.prim x) = serScalar x from rfl, heq, List.cons_append, pVal_cons,
      if_neg hd1, ← List.cons_append, ← heq, pScalar_round x hv c r hcd, bindPair_some]
  | arr xs =>
    rw [show serVal (JVal.arr xs) = '[' :: serArrBody xs from rfl, List.cons_append,
      pVal_cons, if_pos rfl,
      pArr_round xs fuel (c :: r) hv (by simpa [jvalSize] using hfuel), bindPair_some]


/-! ### Round trip: fields and objects -/

theorem pField_quote (fuel : Nat) (X : List Char) :
    pField fuel ('"' :: X) =
      bindPair (pStrAux X) (fun k r =>
        match r with
        | ':' :: r2 => bindPair (pVal fuel r2) (fun v r3 => some ((String.mk k, v), r3))
        | _ => none) := rfl

theorem pField_round (f : String × JVal) (fuel : Nat) (c : Char) (r : List Char)
    (hk : strPlain f.1) (hv : jvalPlain f.2) (hfuel : jvalSize f.2 ≤ fuel)
    (hcd : isDigitCh c = false) :
    pField fuel (serField f ++ c :: r) = some (f, c :: r) := by
  rw [show serField f = '"' :: (escapeList f.1.data ++ '"' :: ':' :: serVal f.2) from rfl]
  simp only [List.cons_append, List.append_assoc]
  rw [pField_quote, pStrAux_round f.1.data (':' :: (serVal f.2 ++ c :: r)) hk, bindPair_some]
  show bindPair (pVal fuel (serVal f.2 ++ c :: r))
      (fun v r3 => some ((String.mk f.1.data, v), r3)) = some (f, c :: r)
  rw [pVal_round f.2 fuel c r hv hfuel hcd, bindPair_some]

theorem pFieldsTail_rbrace (fuel : Nat) (X : List Char) :
    pFieldsTail fuel ('}' :: X) = some ([], X) := by
  rw [pFieldsTail.eq_def]
  exact rfl

theorem pFieldsTail_comma (f : Nat) (X : List Char) :
    pFieldsTail (f + 1) (',' :: X) =
      bindPair (pField f X) (fun fd r =>
        bindPair (pFieldsTail f r) (fun fs r2 => some (fd :: fs, r2))) := by
  rw [pFieldsTail.eq_def]
  exact rfl

theorem serFieldsTail_head (fs : Config) :
    ∃ t ts, serFieldsTail fs = t :: ts ∧ (t = ',' ∨ t = '}') := by
  cases fs with
  | nil => exact ⟨'}', [], rfl, Or.inr rfl⟩
  | cons f fs => exact ⟨',', serField f ++ serFieldsTail fs, rfl, Or.inl rfl⟩

theorem pFieldsTail_round (fs : Config) :
    ∀ (fuel : Nat) (r : List Char),
    (∀ f ∈ fs, strPlain f.1 ∧ jvalPlain f.2) → cfgFuel fs ≤ fuel →
    pFieldsTail fuel (serFieldsTail fs ++ r) = some (fs, r) := by
  induction fs with
  | nil =>
    intro fuel r _ _
    rw [show serFieldsTail [] = ['}'] from rfl, List.singleton_append, pFieldsTail_rbrace]
  | cons f fs ih =>
    intro fuel r hplain hfuel
    rw [cfgFuel] at hfuel
    obtain ⟨fl, rfl⟩ : ∃ fl, fuel = fl + 1 := by
      cases fuel with
      | zero => omega
      | succ fl => exact ⟨fl, rfl⟩
    have hf := hplain f (List.mem_cons_self f fs)
    have hfs : ∀ g ∈ fs, strPlain g.1 ∧ jvalPlain g.2 :=
      fun g hg => hplain g (List.mem_cons_of_mem f hg)
    obtain ⟨t, ts, ht, htd⟩ := serFieldsTail_head fs
    have htnd : isDigitCh t = false := by
      rcases htd with h | h <;> subst h <;> decide
    rw [show serFieldsTail (f :: fs) = ',' :: (serField f ++ serFieldsTail fs) from rfl,
      List.cons_append, pFieldsTail_comma, List.append_assoc, ht, List.cons_append,
      pField_round f fl t (ts ++ r) hf.1 hf.2 (by omega) htnd, bindPair_some]
    rw [show (t :: (ts ++ r)) = (t :: ts) ++ r from rfl, ← ht,
      ih fl r hfs (by omega), bindPair_some]

theorem pObj_cons (c : Char) (c2 : Char) (fuel : Nat) (X : List Char) :
    pObj fuel (c :: c2 :: X) =
      if c = '{' then
        if c2 = '}' then some ([], X)
        else
          bindPair (pField fuel (c2 :: X)) (fun f r =>
            bindPair (pFieldsTail fuel r) (fun fs r2 => some (f :: fs, r2)))
      else none := rfl

theorem serField_head (f : String × JVal) :
    ∃ ds, serField f = '"' :: ds := ⟨escapeList f.1.data ++ '"' :: ':' :: serVal f.2, rfl⟩

theorem pObj_round (fs : Config) (fuel : Nat) (r : List Char)
    (hplain : ∀ f ∈ fs, strPlain f.1 ∧ jvalPlain f.2) (hfuel : cfgFuel fs ≤ fuel) :
    pObj fuel (serObj fs ++ r) = some (fs, r) := by
  cases fs with
  | nil =>
    rw [show serObj [] = ['{', '}'] from rfl]
    exact rfl
  | cons f fs =>
    have hf := hplain f (List.mem_cons_self f fs)
    have hfs : ∀ g ∈ fs, strPlain g.1 ∧ jvalPlain g.2 :=
      fun g hg => hplain g (List.mem_cons_of_mem f hg)
    rw [cfgFuel] at hfuel
    obtain ⟨ds, hd⟩ := serField_head f
    obtain ⟨t, ts, ht, htd⟩ := serFieldsTail_head fs
    have htnd : isDigitCh t = false := by
      rcases htd with h | h <;> subst h <;> decide
    rw [show serObj (f :: fs) = '{' :: (serField f ++ serFieldsTail fs) from rfl,
      List.cons_append, List.append_assoc, hd, List.cons_append, pObj_cons, if_pos rfl,
      if_neg (by decide), ← List.cons_append, ← hd, ht, List.cons_append,
      pField_round f fuel t (ts ++ r) hf.1 hf.2 (by omega) htnd, bindPair_some]
    rw [show (t :: (ts ++ r)) = (t :: ts) ++ r from rfl, ← ht,
      pFieldsTail_round fs fuel r hfs (by omega), bindPair_some]


/-! ### Round trip: the whole key -/

theorem serScalar_length_pos (x : Scalar) : 1 ≤ (serScalar x).length := by
  obtain ⟨d, ds, heq, _, _⟩ := serScalar_head_ne x
  rw [heq]
  simp

theorem serArrTail_length (xs : List Scalar) :
    xs.length + 1 ≤ (serArrTail xs).length := by
  induction xs with
  | nil => simp [serArrTail]
  | cons x xs ih =>
    have := serScalar_length_pos x
    simp only [serArrTail, List.length_cons, List.length_append]
    omega

theorem serVal_length (v : JVal) : jvalSize v ≤ (serVal v).length := by
  cases v with
  | prim x => simp [jvalSize]
  | arr xs =>
    cases xs with
    | nil => simp [jvalSize]
    | cons x xs2 =>
      have h1 := serScalar_length_pos x
      have h2 := serArrTail_length xs2
      simp only [jvalSize, serVal, serArr, serArrBody, List.length_cons, List.length_append]
      omega

theorem serField_length (f : String × JVal) :
    jvalSize f.2 ≤ (serField f).length := by
  have := serVal_length f.2
  simp only [serField, List.length_cons, List.length_append]
  omega

theorem serFieldsTail_length (fs : Config) :
    cfgFuel fs ≤ (serFieldsTail fs).length := by
  induction fs with
  | nil => simp [cfgFuel, serFieldsTail]
  | cons f fs ih =>
    have := serField_length f
    simp only [cfgFuel, serFieldsTail, List.length_cons, List.length_append]
    omega

theorem serObj_length (fs : Config) : cfgFuel fs ≤ (serObj fs).length := by
  cases fs with
  | nil => simp [cfgFuel, serObj]
  | cons f fs =>
    have h1 := serField_length f
    have h2 := serFieldsTail_length fs
    simp only [cfgFuel, serObj, serFieldsTail, List.length_cons, List.length_append]
    omega

theorem tryParseKey_serObj (fs : Config) (h : cfgPlain fs) :
    tryParseKey (String.mk (serObj fs)) = some fs := by
  unfold tryParseKey
  rw [show (String.mk (serObj fs)).data = serObj fs from rfl]
  have hr := pObj_round fs ((serObj fs).length + 1) [] h
    (Nat.le_trans (serObj_length fs) (Nat.le_succ _))
  rw [List.append_nil] at hr
  rw [hr]

/-- The parser recovers the sorted field list from a generated cache
key. -/
theorem tryParseKey_createCacheKey (c : Config) (h : cfgPlain c) :
    tryParseKey (createCacheKey c) = some (sortFields c) := by
  unfold createCacheKey
  apply tryParseKey_serObj
  intro f hf
  exact h f ((sortFields_perm c).mem_iff.mp hf)


/-! ### Claim C8: key distinctness -/

/-- C8.  `createCacheKey` is injective on the configurations the system
feeds it: if two configurations (strings drawn from characters at or
above U+0020, as the plugin's field names and values are) produce the
same key string, they hold the same fields — one is a permutation of the
other.  Contrapositive: structurally different configurations yield
different keys. -/
theorem createCacheKey_injective (c1 c2 : Config) (h1 : cfgPlain c1) (h2 : cfgPlain c2)
    (heq : createCacheKey c1 = createCacheKey c2) : List.Perm c1 c2 := by
  have e1 := tryParseKey_createCacheKey c1 h1
  have e2 := tryParseKey_createCacheKey c2 h2
  rw [heq, e2] at e1
  have hs : sortFields c2 = sortFields c1 := Option.some.inj e1
  exact (sortFields_perm c1).symm.trans (hs ▸ sortFields_perm c2)

theorem createCacheKey_injective_witness :
    (cfgPlain [("username", JVal.prim (Scalar.str "alice")), ("mediaId", JVal.prim (Scalar.num 42))] ∧
     cfgPlain [("mediaId", JVal.prim (Scalar.num 42)), ("username", JVal.prim (Scalar.str "alice"))] ∧
     createCacheKey [("username", JVal.prim (Scalar.str "alice")), ("mediaId", JVal.prim (Scalar.num 42))]
       = createCacheKey [("mediaId", JVal.prim (Scalar.num 42)), ("username", JVal.prim (Scalar.str "alice"))]) ∧
    List.Perm
      [("username", JVal.prim (Scalar.str "alice")), ("mediaId", JVal.prim (Scalar.num 42))]
      [("mediaId", JVal.prim (Scalar.num 42)), ("username", JVal.prim (Scalar.str "alice"))] :=
  ⟨⟨by decide, by decide, by decide⟩,
   createCacheKey_injective
     [("username", JVal.prim (Scalar.str "alice")), ("mediaId", JVal.prim (Scalar.num 42))]
     [("mediaId", JVal.prim (Scalar.num 42)), ("username", JVal.prim (Scalar.str "alice"))]
     (by decide) (by decide) (by decide)⟩

/-! ### Claim C5: invalidation precision on mediaData -/

/-- C5.  After a successful mutation for media id 42 (user "alice",
mediaType "ANIME") triggers `clearCacheForMedia(42)`, the `mediaData`
entry under the key encoding mediaId 42 is gone, while the entry for
mediaId 99 (same user and mediaType) is untouched and still served by
`getFromCache` within its TTL. -/
theorem invalidation_precision :
    mapGet (clearCacheForMedia
        (⟨[],
          [(createCacheKey [("username", JVal.prim (Scalar.str "alice")),
              ("type", JVal.prim (Scalar.str "single")), ("mediaId", JVal.prim (Scalar.num 42)),
              ("mediaType", JVal.prim (Scalar.str "ANIME"))], ⟨420, 0⟩),
           (createCacheKey [("username", JVal.prim (Scalar.str "alice")),
              ("type", JVal.prim (Scalar.str "single")), ("mediaId", JVal.prim (Scalar.num 99)),
              ("mediaType", JVal.prim (Scalar.str "ANIME"))], ⟨990, 0⟩)],
          []⟩ : CacheState Nat) 42).mediaData
      (createCacheKey [("username", JVal.prim (Scalar.str "alice")),
        ("type", JVal.prim (Scalar.str "single")), ("mediaId", JVal.prim (Scalar.num 42)),
        ("mediaType", JVal.prim (Scalar.str "ANIME"))]) = none ∧
    (getFromCache (clearCacheForMedia
        (⟨[],
          [(createCacheKey [("username", JVal.prim (Scalar.str "alice")),
              ("type", JVal.prim (Scalar.str "single")), ("mediaId", JVal.prim (Scalar.num 42)),
              ("mediaType", JVal.prim (Scalar.str "ANIME"))], ⟨420, 0⟩),
           (createCacheKey [("username", JVal.prim (Scalar.str "alice")),
              ("type", JVal.prim (Scalar.str "single")), ("mediaId", JVal.prim (Scalar.num 99)),
              ("mediaType", JVal.prim (Scalar.str "ANIME"))], ⟨990, 0⟩)],
          []⟩ : CacheState Nat) 42)
      "mediaData"
      (createCacheKey [("username", JVal.prim (Scalar.str "alice")),
        ("type", JVal.prim (Scalar.str "single")), ("mediaId", JVal.prim (Scalar.num 99)),
        ("mediaType", JVal.prim (Scalar.str "ANIME"))])
      (some (ttlFor "mediaData")) 1000).1 = some 990 := by
  constructor
  · decide
  · decide


/-! ### Claim C10: the coarse invalidation sweep -/

/-- C10.  For every accepted media id (`parseInt` nonzero), the
invalidation sweep ends with the entire `userData` category empty
(every cached list/stats entry for every user is gone, via
`clearListCaches`), deletes the `searchResults` entries whose stored
key parses to a matching `mediaId`, and skips — without aborting the
sweep — entries whose key does not parse or does not match. -/
theorem clearCacheForMedia_sweep {α : Type} (st : CacheState α) (id : Int) (hid : id ≠ 0) :
    (clearCacheForMedia st id).userData = [] ∧
    (∀ k (v : CacheEntry α), (k, v) ∈ st.searchResults → tryParseKey k = none →
       (k, v) ∈ (clearCacheForMedia st id).searchResults) ∧
    (∀ cfg (v : CacheEntry α), cfgPlain cfg →
       lookupField (sortFields cfg) "mediaId" = some (JVal.prim (Scalar.num id)) →
       (createCacheKey cfg, v) ∉ (clearCacheForMedia st id).searchResults) ∧
    (∀ k (v : CacheEntry α), (k, v) ∈ st.searchResults → keyMatchesMedia id k = false →
       (k, v) ∈ (clearCacheForMedia st id).searchResults) := by
  have hclear : clearCacheForMedia st id =
      { userData := [],
        mediaData := pruneMedia id st.mediaData,
        searchResults := pruneMedia id st.searchResults } := by
    unfold clearCacheForMedia clearListCaches
    rw [if_neg hid]
  refine ⟨by rw [hclear], ?_, ?_, ?_⟩
  · intro k v hmem hparse
    rw [hclear]
    simp only [pruneMedia]
    refine List.mem_filter.mpr ⟨hmem, ?_⟩
    simp [keyMatchesMedia, hparse]
  · intro cfg v hplain hlook hmem
    rw [hclear] at hmem
    simp only [pruneMedia] at hmem
    have hflt := (List.mem_filter.mp hmem).2
    have hmatch : keyMatchesMedia id (createCacheKey cfg) = true := by
      unfold keyMatchesMedia
      rw [tryParseKey_createCacheKey cfg hplain]
      show (match lookupField (sortFields cfg) "mediaId" with
        | some (JVal.prim (Scalar.num n)) => n == id
        | _ => false) = true
      rw [hlook]
      simp
    rw [hmatch] at hflt
    simp at hflt
  · intro k v hmem hfalse
    rw [hclear]
    simp only [pruneMedia]
    exact List.mem_filter.mpr ⟨hmem, by simp [hfalse]⟩


theorem clearCacheForMedia_sweep_witness :
    (42 : Int) ≠ 0 ∧
    ((clearCacheForMedia
        (⟨[("u", ⟨1, 0⟩)], [],
          [(createCacheKey [("mediaId", JVal.prim (Scalar.num 42)),
              ("search", JVal.prim (Scalar.str "naruto")),
              ("type", JVal.prim (Scalar.str "search"))], ⟨7, 0⟩),
           ("oops", ⟨8, 0⟩)]⟩ : CacheState Nat) 42).userData = [] ∧
     (∀ k (v : CacheEntry Nat),
        (k, v) ∈ (⟨[("u", ⟨1, 0⟩)], [],
          [(createCacheKey [("mediaId", JVal.prim (Scalar.num 42)),
              ("search", JVal.prim (Scalar.str "naruto")),
              ("type", JVal.prim (Scalar.str "search"))], ⟨7, 0⟩),
           ("oops", ⟨8, 0⟩)]⟩ : CacheState Nat).searchResults → tryParseKey k = none →
        (k, v) ∈ (clearCacheForMedia
          (⟨[("u", ⟨1, 0⟩)], [],
            [(createCacheKey [("mediaId", JVal.prim (Scalar.num 42)),
                ("search", JVal.prim (Scalar.str "naruto")),
                ("type", JVal.prim (Scalar.str "search"))], ⟨7, 0⟩),
             ("oops", ⟨8, 0⟩)]⟩ : CacheState Nat) 42).searchResults) ∧
     (∀ cfg (v : CacheEntry Nat), cfgPlain cfg →
        lookupField (sortFields cfg) "mediaId" = some (JVal.prim (Scalar.num 42)) →
        (createCacheKey cfg, v) ∉ (clearCacheForMedia
          (⟨[("u", ⟨1, 0⟩)], [],
            [(createCacheKey [("mediaId", JVal.prim (Scalar.num 42)),
                ("search", JVal.prim (Scalar.str "naruto")),
                ("type", JVal.prim (Scalar.str "search"))], ⟨7, 0⟩),
             ("oops", ⟨8, 0⟩)]⟩ : CacheState Nat) 42).searchResults) ∧
     (∀ k (v : CacheEntry Nat),
        (k, v) ∈ (⟨[("u", ⟨1, 0⟩)], [],
          [(createCacheKey [("mediaId", JVal.prim (Scalar.num 42)),
              ("search", JVal.prim (Scalar.str "naruto")),
              ("type", JVal.prim (Scalar.str "search"))], ⟨7, 0⟩),
           ("oops", ⟨8, 0⟩)]⟩ : CacheState Nat).searchResults → keyMatchesMedia 42 k = false →
        (k, v) ∈ (clearCacheForMedia
          (⟨[("u", ⟨1, 0⟩)], [],
            [(createCacheKey [("mediaId", JVal.prim (Scalar.num 42)),
                ("search", JVal.prim (Scalar.str "naruto")),
                ("type", JVal.prim (Scalar.str "search"))], ⟨7, 0⟩),
             ("oops", ⟨8, 0⟩)]⟩ : CacheState Nat) 42).searchResults)) :=
  ⟨by decide,
   clearCacheForMedia_sweep
     (⟨[("u", ⟨1, 0⟩)], [],
       [(createCacheKey [("mediaId", JVal.prim (Scalar.num 42)),
           ("search", JVal.prim (Scalar.str "naruto")),
           ("type", JVal.prim (Scalar.str "search"))], ⟨7, 0⟩),
        ("oops", ⟨8, 0⟩)]⟩ : CacheState Nat) 42 (by decide)⟩

theorem loadCat_media {α : Type} (now : Nat) :
    ∀ (l : List (String × BlobEntry α)) (st : CacheState α),
    loadCat st "mediaData" l now
      = { st with mediaData := foldEntries st.mediaData l (ttlFor "mediaData") now } := by
  intro l
  induction l with
  | nil => intro st; rfl
  | cons p l ih =>
    intro st
    obtain ⟨k, pv⟩ := p
    cases pv with
    | bad =>
      show loadCat st "mediaData" l now = _
      rw [ih st]
      rfl
    | good v ts =>
      by_cases hf : now - ts < ttlFor "mediaData"
      · show loadCat (if now - ts < ttlFor "mediaData" then
            { st with mediaData := mapSet st.mediaData k ⟨v, ts⟩ } else st) "mediaData" l now = _
        rw [if_pos hf, ih]
        show _ = { st with mediaData := foldEntries st.mediaData ((k, BlobEntry.good v ts) :: l) (ttlFor "mediaData") now }
        rw [show foldEntries st.mediaData ((k, BlobEntry.good v ts) :: l) (ttlFor "mediaData") now
            = foldEntries (if now - ts < ttlFor "mediaData" then mapSet st.mediaData k ⟨v, ts⟩
                else st.mediaData) l (ttlFor "mediaData") now from rfl, if_pos hf]
      · show loadCat (if now - ts < ttlFor "mediaData" then
            { st with mediaData := mapSet st.mediaData k ⟨v, ts⟩ } else st) "mediaData" l now = _
        rw [if_neg hf, ih]
        show _ = { st with mediaData := foldEntries st.mediaData ((k, BlobEntry.good v ts) :: l) (ttlFor "mediaData") now }
        rw [show foldEntries st.mediaData ((k, BlobEntry.good v ts) :: l) (ttlFor "mediaData") now
            = foldEntries (if now - ts < ttlFor "mediaData" then mapSet st.mediaData k ⟨v, ts⟩
                else st.mediaData) l (ttlFor "mediaData") now from rfl, if_neg hf]

theorem loadCat_search {α : Type} (now : Nat) :
    ∀ (l : List (String × BlobEntry α)) (st : CacheState α),
    loadCat st "searchResults" l now
      = { st with searchResults := foldEntries st.searchResults l (ttlFor "searchResults") now } := by
  intro l
  induction l with
  | nil => intro st; rfl
  | cons p l ih =>
    intro st
    obtain ⟨k, pv⟩ := p
    cases pv with
    | bad =>
      show loadCat st "searchResults" l now = _
      rw [ih st]
      rfl
    | good v ts =>
      by_cases hf : now - ts < ttlFor "searchResults"
      · show loadCat (if now - ts < ttlFor "searchResults" then
            { st with searchResults := mapSet st.searchResults k ⟨v, ts⟩ } else st) "searchResults" l now = _
        rw [if_pos hf, ih]
        show _ = { st with searchResults := foldEntries st.searchResults ((k, BlobEntry.good v ts) :: l) (ttlFor "searchResults") now }
        rw [show foldEntries st.searchResults ((k, BlobEntry.good v ts) :: l) (ttlFor "searchResults") now
            = foldEntries (if now - ts < ttlFor "searchResults" then mapSet st.searchResults k ⟨v, ts⟩
                else st.searchResults) l (ttlFor "searchResults") now from rfl, if_pos hf]
      · show loadCat (if now - ts < ttlFor "searchResults" then
            { st with searchResults := mapSet st.searchResults k ⟨v, ts⟩ } else st) "searchResults" l now = _
        rw [if_neg hf, ih]
        show _ = { st with searchResults := foldEntries st.searchResults ((k, BlobEntry.good v ts) :: l) (ttlFor "searchResults") now }
        rw [show foldEntries st.searchResults ((k, BlobEntry.good v ts) :: l) (ttlFor "searchResults") now
            = foldEntries (if now - ts < ttlFor "searchResults" then mapSet st.searchResults k ⟨v, ts⟩
                else st.searchResults) l (ttlFor "searchResults") now from rfl, if_neg hf]


theorem getCat_user (st : CacheState α) : getCat st "userData" = some st.userData := rfl

theorem getCat_media (st : CacheState α) : getCat st "mediaData" = some st.mediaData := rfl

theorem getCat_search (st : CacheState α) :
    getCat st "searchResults" = some st.searchResults := rfl

theorem loadCat_user {α : Type} (now : Nat) :
    ∀ (l : List (String × BlobEntry α)) (st : CacheState α),
    loadCat st "userData" l now
      = { st with userData := foldEntries st.userData l (ttlFor "userData") now } := by
  intro l
  induction l with
  | nil => intro st; rfl
  | cons p l ih =>
    intro st
    obtain ⟨k, pv⟩ := p
    cases pv with
    | bad =>
      show loadCat st "userData" l now = _
      rw [ih st]
      rfl
    | good v ts =>
      by_cases hf : now - ts < ttlFor "userData"
      · show loadCat (if now - ts < ttlFor "userData" then
            { st with userData := mapSet st.userData k ⟨v, ts⟩ } else st) "userData" l now = _
        rw [if_pos hf, ih]
        show _ = { st with userData := foldEntries st.userData ((k, BlobEntry.good v ts) :: l) (ttlFor "userData") now }
        rw [show foldEntries st.userData ((k, BlobEntry.good v ts) :: l) (ttlFor "userData") now
            = foldEntries (if now - ts < ttlFor "userData" then mapSet st.userData k ⟨v, ts⟩
                else st.userData) l (ttlFor "userData") now from rfl, if_pos hf]
      · show loadCat (if now - ts < ttlFor "userData" then
            { st with userData := mapSet st.userData k ⟨v, ts⟩ } else st) "userData" l now = _
        rw [if_neg hf, ih]
        show _ = { st with userData := foldEntries st.userData ((k, BlobEntry.good v ts) :: l) (ttlFor "userData") now }
        rw [show foldEntries st.userData ((k, BlobEntry.good v ts) :: l) (ttlFor "userData") now
            = foldEntries (if now - ts < ttlFor "userData" then mapSet st.userData k ⟨v, ts⟩
                else st.userData) l (ttlFor "userData") now from rfl, if_neg hf]


theorem mapGet_append_of_none {α : Type} (m m2 : CMap α) (k : String)
    (h : mapGet m k = none) : mapGet (m ++ m2) k = mapGet m2 k := by
  induction m with
  | nil => simp
  | cons p rest ih =>
    by_cases hp : p.1 = k
    · rw [mapGet, if_pos hp] at h
      cases h
    · rw [mapGet, if_neg hp] at h
      rw [List.cons_append, mapGet, if_neg hp]
      exact ih h

theorem mapSet_append_of_none {α : Type} (m : CMap α) (k : String) (e : CacheEntry α)
    (h : mapGet m k = none) : mapSet m k e = m ++ [(k, e)] := by
  induction m with
  | nil => rfl
  | cons p rest ih =>
    by_cases hp : p.1 = k
    · rw [mapGet, if_pos hp] at h
      cases h
    · rw [mapGet, if_neg hp] at h
      rw [mapSet, if_neg hp, ih h, List.cons_append]

theorem foldEntries_disjoint {α : Type} (ttl now : Nat) :
    ∀ (l : CMap α) (m : CMap α),
    (∀ k ∈ l.map Prod.fst, mapGet m k = none) → (l.map Prod.fst).Nodup →
    foldEntries m (l.map (fun e => (e.1, BlobEntry.good e.2.value e.2.timestamp))) ttl now
      = m ++ l.filter (fun e => decide (now - e.2.timestamp < ttl)) := by
  intro l
  induction l with
  | nil => intro m _ _; simp [foldEntries]
  | cons e l ih =>
    intro m hdis hnd
    have he : mapGet m e.1 = none := hdis e.1 (by simp)
    have hdis2 : ∀ k ∈ l.map Prod.fst, mapGet (m ++ [(e.1, e.2)]) k = none := by
      intro k hk
      rw [mapGet_append_of_none m _ k (hdis k (List.mem_cons_of_mem _ hk))]
      have hne : e.1 ≠ k := by
        intro hek
        rcases List.nodup_cons.mp hnd with ⟨hnm, _⟩
        exact hnm (hek ▸ hk)
      rw [mapGet, if_neg hne]
      rfl
    have hnd2 : (l.map Prod.fst).Nodup := (List.nodup_cons.mp hnd).2
    by_cases hf : now - e.2.timestamp < ttl
    · rw [show (e :: l).map (fun e => (e.1, BlobEntry.good e.2.value e.2.timestamp))
          = (e.1, BlobEntry.good e.2.value e.2.timestamp)
            :: l.map (fun e => (e.1, BlobEntry.good e.2.value e.2.timestamp)) from rfl]
      rw [show foldEntries m ((e.1, BlobEntry.good e.2.value e.2.timestamp)
            :: l.map (fun e => (e.1, BlobEntry.good e.2.value e.2.timestamp))) ttl now
          = foldEntries (if now - e.2.timestamp < ttl then mapSet m e.1 ⟨e.2.value, e.2.timestamp⟩
              else m) (l.map (fun e => (e.1, BlobEntry.good e.2.value e.2.timestamp))) ttl now
          from rfl, if_pos hf]
      rw [show (⟨e.2.value, e.2.timestamp⟩ : CacheEntry α) = e.2 from rfl]
      rw [mapSet_append_of_none m e.1 e.2 he, ih (m ++ [(e.1, e.2)]) hdis2 hnd2]
      rw [List.filter_cons, if_pos (by simpa using hf)]
      simp
    · rw [show (e :: l).map (fun e => (e.1, BlobEntry.good e.2.value e.2.timestamp))
          = (e.1, BlobEntry.good e.2.value e.2.timestamp)
            :: l.map (fun e => (e.1, BlobEntry.good e.2.value e.2.timestamp)) from rfl]
      rw [show foldEntries m ((e.1, BlobEntry.good e.2.value e.2.timestamp)
            :: l.map (fun e => (e.1, BlobEntry.good e.2.value e.2.timestamp))) ttl now
          = foldEntries (if now - e.2.timestamp < ttl then mapSet m e.1 ⟨e.2.value, e.2.timestamp⟩
              else m) (l.map (fun e => (e.1, BlobEntry.good e.2.value e.2.timestamp))) ttl now
          from rfl, if_neg hf]
      rw [ih m (fun k hk => hdis k (List.mem_cons_of_mem _ hk)) hnd2]
      rw [List.filter_cons, if_neg (by simpa using hf)]


/-- C6.  Persistence round trip and robustness of hydration: loading the
saved blob of a cache into the fresh (empty) cache keeps exactly the
entries younger than their category TTL — an entry whose age exceeds
(or reaches) its TTL is discarded; and hydration is total on malformed
input — when `JSON.parse` of the stored blob fails, the catch leaves the
(startup-empty) cache exactly as it was, and an absent item likewise. -/
theorem cache_persistence {α : Type} (st : CacheState α) (now : Nat)
    (h1 : (st.userData.map Prod.fst).Nodup)
    (h2 : (st.mediaData.map Prod.fst).Nodup)
    (h3 : (st.searchResults.map Prod.fst).Nodup) :
    loadCacheFromStorage (some (Except.ok (saveCacheToStorage st))) (emptyCache α) now
      = ⟨st.userData.filter (fun e => decide (now - e.2.timestamp < ttlFor "userData")),
         st.mediaData.filter (fun e => decide (now - e.2.timestamp < ttlFor "mediaData")),
         st.searchResults.filter (fun e => decide (now - e.2.timestamp < ttlFor "searchResults"))⟩ ∧
    (∀ st2 : CacheState α, loadCacheFromStorage (some (Except.error ())) st2 now = st2) ∧
    (∀ st2 : CacheState α, loadCacheFromStorage none st2 now = st2) := by
  refine ⟨?_, fun st2 => rfl, fun st2 => rfl⟩
  have hchain : loadCacheFromStorage (some (Except.ok (saveCacheToStorage st))) (emptyCache α) now
      = loadCat (loadCat (loadCat (emptyCache α) "userData"
          (st.userData.map (fun e => (e.1, BlobEntry.good e.2.value e.2.timestamp))) now)
          "mediaData"
          (st.mediaData.map (fun e => (e.1, BlobEntry.good e.2.value e.2.timestamp))) now)
          "searchResults"
          (st.searchResults.map (fun e => (e.1, BlobEntry.good e.2.value e.2.timestamp))) now := rfl
  rw [hchain, loadCat_user, loadCat_media, loadCat_search]
  show (⟨foldEntries []
      (st.userData.map (fun e => (e.1, BlobEntry.good e.2.value e.2.timestamp)))
      (ttlFor "userData") now,
    foldEntries []
      (st.mediaData.map (fun e => (e.1, BlobEntry.good e.2.value e.2.timestamp)))
      (ttlFor "mediaData") now,
    foldEntries []
      (st.searchResults.map (fun e => (e.1, BlobEntry.good e.2.value e.2.timestamp)))
      (ttlFor "searchResults") now⟩ : CacheState α) = _
  rw [foldEntries_disjoint (ttlFor "userData") now st.userData [] (fun k _ => rfl) h1,
    foldEntries_disjoint (ttlFor "mediaData") now st.mediaData [] (fun k _ => rfl) h2,
    foldEntries_disjoint (ttlFor "searchResults") now st.searchResults [] (fun k _ => rfl) h3,
    List.nil_append, List.nil_append, List.nil_append]


theorem cache_persistence_witness :
    (((⟨[("fresh", ⟨1, 1900000⟩), ("stale", ⟨2, 0⟩)], [], []⟩ : CacheState Nat).userData.map
        Prod.fst).Nodup ∧
     ((⟨[("fresh", ⟨1, 1900000⟩), ("stale", ⟨2, 0⟩)], [], []⟩ : CacheState Nat).mediaData.map
        Prod.fst).Nodup ∧
     ((⟨[("fresh", ⟨1, 1900000⟩), ("stale", ⟨2, 0⟩)], [], []⟩ : CacheState Nat).searchResults.map
        Prod.fst).Nodup) ∧
    (loadCacheFromStorage
        (some (Except.ok (saveCacheToStorage
          (⟨[("fresh", ⟨1, 1900000⟩), ("stale", ⟨2, 0⟩)], [], []⟩ : CacheState Nat))))
        (emptyCache Nat) 2000000
      = ⟨(⟨[("fresh", ⟨1, 1900000⟩), ("stale", ⟨2, 0⟩)], [], []⟩ : CacheState Nat).userData.filter
            (fun e => decide (2000000 - e.2.timestamp < ttlFor "userData")),
         (⟨[("fresh", ⟨1, 1900000⟩), ("stale", ⟨2, 0⟩)], [], []⟩ : CacheState Nat).mediaData.filter
            (fun e => decide (2000000 - e.2.timestamp < ttlFor "mediaData")),
         (⟨[("fresh", ⟨1, 1900000⟩), ("stale", ⟨2, 0⟩)], [], []⟩ : CacheState Nat).searchResults.filter
            (fun e => decide (2000000 - e.2.timestamp < ttlFor "searchResults"))⟩ ∧
     (∀ st2 : CacheState Nat, loadCacheFromStorage (some (Except.error ())) st2 2000000 = st2) ∧
     (∀ st2 : CacheState Nat, loadCacheFromStorage none st2 2000000 = st2)) ∧
    (⟨[("fresh", ⟨1, 1900000⟩), ("stale", ⟨2, 0⟩)], [], []⟩ : CacheState Nat).userData.filter
        (fun e => decide (2000000 - e.2.timestamp < ttlFor "userData"))
      = [("fresh", ⟨1, 1900000⟩)] :=
  ⟨⟨by decide, by decide, by decide⟩,
   cache_persistence (⟨[("fresh", ⟨1, 1900000⟩), ("stale", ⟨2, 0⟩)], [], []⟩ : CacheState Nat)
     2000000 (by decide) (by decide) (by decide),
   by decide⟩

end Zoro
